import Mathlib

/-!
# Verification of the TWL generator against its specification

Shallow embedding of the matching pipeline of `node-twl-generator`:
the prefix trie scanner (`src/utils/twl-matcher.js`, current revision),
the four-stage article selector (`src/index.js`), the English-first row
driver (`src/index.js`), the legacy Strong's-first driver
(`src/index.js`, earlier revision), the USFM verse parser
(`src/utils/usfm-alignment-remover.js`) and the ID generator.

JavaScript strings are modelled as `List Char`; machine integers do not
occur (all arithmetic is on array indices and counters, which are `Nat`).
`Math.random`-driven draws are modelled as an explicit stream of naturals.
JavaScript regular-expression character classes are modelled on the
character repertoire the program actually works with (ASCII plus the
general-punctuation characters appearing in the sources); `toLowerCase`
is modelled by `Char.toLower`, which like the data of this program only
cases ASCII letters.
-/

set_option maxRecDepth 4096

namespace TwlGen

/-! ## Character-class models for the JavaScript regexes -/

/-- Model of the JS regex class `\w`, that is `[A-Za-z0-9_]`. -/
def jsWordChar (c : Char) : Bool :=
  (97 ≤ c.toNat && c.toNat ≤ 122) || (65 ≤ c.toNat && c.toNat ≤ 90) ||
  (48 ≤ c.toNat && c.toNat ≤ 57) || c.toNat == 95

/-- Model of the JS regex class `\s` (whitespace): ASCII blanks plus
no-break space and the Unicode space separators that can occur in the
corpus. -/
def jsSpaceChar (c : Char) : Bool :=
  c.toNat == 32 || (9 ≤ c.toNat && c.toNat ≤ 13) || c.toNat == 160 ||
  (8192 ≤ c.toNat && c.toNat ≤ 8202) || c.toNat == 8239 || c.toNat == 12288

/-- Model of the JS regex class `\p{P}` (Unicode punctuation) on the
character repertoire of the program: the ASCII punctuation code points of
general category P (note `$ + < = > ^ `` | ~` are symbols, not
punctuation, and `_` is connector punctuation, hence in P), plus the
general-punctuation dashes, single/double quotation marks and the
horizontal ellipsis. -/
def jsPunctChar (c : Char) : Bool :=
  let n := c.toNat
  (33 ≤ n && n ≤ 35) || (37 ≤ n && n ≤ 42) || (44 ≤ n && n ≤ 47) ||
  n == 58 || n == 59 || n == 63 || n == 64 || (91 ≤ n && n ≤ 93) ||
  n == 95 || n == 123 || n == 125 ||
  (8208 ≤ n && n ≤ 8213) || n == 8216 || n == 8217 || n == 8220 ||
  n == 8221 || n == 8230

/-- The class `[\s\p{P}]` used by the scanner for boundary and skip
tests. -/
def jsSpacePunct (c : Char) : Bool :=
  jsSpaceChar c || jsPunctChar c

/-- The apostrophe class of the matcher sources: the literal class in the
current sources contains the straight apostrophe (twice). -/
def jsApos (c : Char) : Bool :=
  c.toNat == 39

/-- `toLowerCase` on one character: `Char.toLower` cases exactly the
ASCII range, which models the JS behaviour on this program's data. -/
def lowChar (c : Char) : Char := c.toLower

/-- Lowercasing a JS string. -/
def lowStr (s : List Char) : List Char := s.map lowChar

/-! ## Positional string matching (model of regex `.test`) -/

/-- Whether a pattern occurs literally in `s` at index `i`. -/
def occursAt (pat s : List Char) (i : Nat) : Bool :=
  List.isPrefixOf pat (s.drop i)

/-- Whether the character at index `i` (if any) is a `\w` character. -/
def wordAt (s : List Char) (i : Nat) : Bool :=
  match s.get? i with
  | some c => jsWordChar c
  | none => false

/-- The JS `\b` assertion at position `i` of `s` (between indices `i-1`
and `i`): exactly one side is a word character; out of range counts as
non-word. -/
def boundaryAt (s : List Char) (i : Nat) : Bool :=
  (if i = 0 then false else wordAt s (i - 1)) != wordAt s i

/-- Model of `new RegExp(`\bALT\b`).test(s)` for a literal
(regex-escaped) alternative `alt`. -/
def wbTest (alt s : List Char) : Bool :=
  (List.range (s.length + 1)).any fun i =>
    occursAt alt s i && boundaryAt s i && boundaryAt s (i + alt.length)

/-- The dash class `[—–-]` of stages 3 and 4 of the selector. -/
def jsSelDash (c : Char) : Bool :=
  c.toNat == 8212 || c.toNat == 8211 || c.toNat == 45

/-- Model of ``new RegExp(`(?:^|\b|[—–-])TERM`).test(s)`` for a literal
term: the term occurs at the start, at a `\b` boundary, or immediately
after a dash. -/
def prefixBoundaryTest (t s : List Char) : Bool :=
  (List.range (s.length + 1)).any fun i =>
    occursAt t s i &&
      (i == 0 || boundaryAt s i ||
        (decide (1 ≤ i) && (match s.get? (i - 1) with
          | some c => jsSelDash c
          | none => false)))

/-- Digit test for the regex class `\d`. -/
def jsDigit (c : Char) : Bool :=
  48 ≤ c.toNat && c.toNat ≤ 57

def digitVal (c : Char) : Nat := c.toNat - 48

/-- `parseInt` on a non-empty run of decimal digits. -/
def digitsToNat (ds : List Char) : Nat :=
  ds.foldl (fun acc c => acc * 10 + digitVal c) 0

/-- Longest whitespace run of `s` starting at its head. -/
def takeWs : List Char → List Char
  | [] => []
  | c :: rest => if jsSpaceChar c then c :: takeWs rest else []

/-- Longest digit run of `s` starting at its head. -/
def takeDigits : List Char → List Char
  | [] => []
  | c :: rest => if jsDigit c then c :: takeDigits rest else []

/-! ## Morphology helpers shared by the article selector
(`src/index.js`, `findMatchingArticles` and `chooseArticleByGlQuote`;
the same helper bodies appear verbatim in both functions and in the
legacy Strong's-first revision) -/

/-- JS strings of the selector are modelled as character lists. -/
abbrev JStr := List Char

/-- `String.prototype.trim`. -/
def jsTrim (s : JStr) : JStr :=
  ((s.dropWhile jsSpaceChar).reverse.dropWhile jsSpaceChar).reverse

/- `s.split(/\s+/)`: segments between maximal whitespace runs (with the
JS boundary artifacts: a leading run yields a leading empty segment, a
trailing run a trailing empty segment). -/
mutual

/-- Main state of the whitespace splitter: accumulating a segment. -/
def splitWsAux : JStr → JStr → List JStr
  | [], cur => [cur.reverse]
  | c :: rest, cur =>
      if jsSpaceChar c then cur.reverse :: splitWsRun rest
      else splitWsAux rest (c :: cur)

/-- Inside a whitespace run of the splitter. -/
def splitWsRun : JStr → List JStr
  | [] => [[]]
  | c :: rest =>
      if jsSpaceChar c then splitWsRun rest
      else splitWsAux rest [c]

end

def splitWs (s : JStr) : List JStr := splitWsAux s []

/-- `parts.join(' ')` / `[...].join(' ')`. -/
def joinSpace (parts : List JStr) : JStr :=
  List.intercalate [' '] parts

/-- `splitHeadLast` (src/index.js lines 267-272): head = all but the
last whitespace-separated word, last = the last word. -/
def splitHeadLast (term : JStr) : JStr × JStr :=
  let parts := splitWs (jsTrim term)
  if parts.length ≤ 1 then ([], parts.headD [])
  else (joinSpace parts.dropLast, parts.getLastD [])

def isVowelCh (c : Char) : Bool :=
  lowChar c == 'a' || lowChar c == 'e' || lowChar c == 'i' ||
  lowChar c == 'o' || lowChar c == 'u'

def isConsonantCh (c : Char) : Bool :=
  (97 ≤ (lowChar c).toNat && (lowChar c).toNat ≤ 122) && !isVowelCh c

/-- `/suffix$/i.test(w)` for a literal suffix. -/
def endsWithCI (suffix w : JStr) : Bool :=
  List.isSuffixOf (lowStr suffix) (lowStr w)

/-- `/[^aeiou]y$/i.test(w)`: a final `y` preceded by a non-vowel
character. -/
def endsConsY (w : JStr) : Bool :=
  match w.reverse with
  | y :: p :: _ => (lowChar y == 'y') && !isVowelCh p
  | _ => false

/-- `endsWithCVC` (src/index.js lines 305-311). -/
def endsWithCVC (w : JStr) : Bool :=
  match w.reverse with
  | c :: b :: a :: _ =>
      isConsonantCh a && isVowelCh b && isConsonantCh c &&
      !(lowChar c == 'w' || lowChar c == 'x' || lowChar c == 'y')
  | _ => false

/-- The irregular-plural table of `pluralizeTerm`. -/
def irregularPluralTable : List (JStr × JStr) :=
  [("man".data, "men".data), ("woman".data, "women".data),
   ("person".data, "people".data), ("child".data, "children".data),
   ("foot".data, "feet".data), ("tooth".data, "teeth".data),
   ("goose".data, "geese".data), ("mouse".data, "mice".data),
   ("ox".data, "oxen".data)]

/-- `pluralizeWord` (src/index.js lines 281-290). -/
def pluralizeWord (w : JStr) : JStr :=
  let lw := lowStr w
  match (irregularPluralTable.find? (fun e => e.1 == lw)).map Prod.snd with
  | some pl => pl
  | none =>
    if endsConsY w then w.dropLast ++ "ies".data
    else if endsWithCI "s".data w || endsWithCI "x".data w || endsWithCI "z".data w ||
        endsWithCI "ch".data w || endsWithCI "sh".data w then w ++ "es".data
    else if endsWithCI "f".data w &&
        !(endsWithCI "roof".data w || endsWithCI "belief".data w ||
          endsWithCI "chief".data w || endsWithCI "proof".data w) then
      w.dropLast ++ "ves".data
    else if endsWithCI "fe".data w then (w.dropLast).dropLast ++ "ves".data
    else if endsWithCI "o".data w then w ++ "es".data
    else w ++ "s".data

/-- Ordered-set insertion (JS `Set.prototype.add`). -/
def setAdd (l : List JStr) (v : JStr) : List JStr :=
  if l.contains v then l else l ++ [v]

/-- The trimming `add` of `pluralizeTerm`: skip blank strings. -/
def setAddTrim (l : List JStr) (v : JStr) : List JStr :=
  let t := jsTrim v
  if t ≠ [] then setAdd l t else l

/-- `pluralizeTerm` (src/index.js lines 274-301): pluralize the last
word of the term and always also add the plain `term + "s"`. -/
def pluralizeTerm (term : JStr) : List JStr :=
  let parts := splitWs term
  let out :=
    if parts.length == 1 then setAddTrim [] (pluralizeWord term)
    else setAddTrim [] (joinSpace (parts.dropLast ++ [pluralizeWord (parts.getLastD [])]))
  setAddTrim out (term ++ "s".data)

/-- `presentParticipleWord` (src/index.js lines 312-318). -/
def presentParticipleWord (w : JStr) : JStr :=
  if endsWithCI "ie".data w then (w.dropLast).dropLast ++ "ying".data
  else if endsWithCI "ee".data w then w ++ "ing".data
  else if endsWithCI "e".data w then w.dropLast ++ "ing".data
  else if endsWithCVC w then w ++ [w.getLastD 'x'] ++ "ing".data
  else w ++ "ing".data

/-- `pastTenseWord` (src/index.js lines 319-324). -/
def pastTenseWord (w : JStr) : JStr :=
  if endsWithCI "e".data w then w ++ "d".data
  else if endsConsY w then w.dropLast ++ "ied".data
  else if endsWithCVC w then w ++ [w.getLastD 'x'] ++ "ed".data
  else w ++ "ed".data

/-- `ingEdFormsForTerm` (src/index.js lines 325-338). -/
def ingEdFormsForTerm (term : JStr) : List JStr :=
  let parts := splitWs term
  if parts.length == 1 then
    setAdd (setAdd [] (presentParticipleWord term)) (pastTenseWord term)
  else
    let last := parts.getLastD []
    let base := joinSpace parts.dropLast
    let pre := if base ≠ [] then base ++ [' '] else []
    setAdd (setAdd [] (pre ++ presentParticipleWord last)) (pre ++ pastTenseWord last)

/-- The irregular-verb table (src/index.js lines 340-396). -/
def irregularVerbMap : List (JStr × List JStr) :=
  [("be".data, ["am", "is", "are", "was", "were", "been", "being", "be"].map String.data),
   ("do".data, ["did", "done", "doing", "does"].map String.data),
   ("go".data, ["went", "gone", "going", "goes"].map String.data),
   ("have".data, ["had", "having", "has"].map String.data),
   ("say".data, ["said", "saying", "says"].map String.data),
   ("see".data, ["saw", "seen", "seeing", "sees"].map String.data),
   ("get".data, ["got", "gotten", "getting", "gets"].map String.data),
   ("make".data, ["made", "making", "makes"].map String.data),
   ("take".data, ["took", "taken", "taking", "takes"].map String.data),
   ("come".data, ["came", "coming", "comes"].map String.data),
   ("know".data, ["knew", "known", "knowing", "knows"].map String.data),
   ("give".data, ["gave", "given", "giving", "gives"].map String.data),
   ("find".data, ["found", "finding", "finds"].map String.data),
   ("think".data, ["thought", "thinking", "thinks"].map String.data),
   ("tell".data, ["told", "telling", "tells"].map String.data),
   ("become".data, ["became", "become", "becoming", "becomes"].map String.data),
   ("show".data, ["showed", "shown", "showing", "shows"].map String.data),
   ("leave".data, ["left", "leaving", "leaves"].map String.data),
   ("feel".data, ["felt", "feeling", "feels"].map String.data),
   ("put".data, ["put", "putting", "puts"].map String.data),
   ("bring".data, ["brought", "bringing", "brings"].map String.data),
   ("begin".data, ["began", "begun", "beginning", "begins"].map String.data),
   ("keep".data, ["kept", "keeping", "keeps"].map String.data),
   ("hold".data, ["held", "holding", "holds"].map String.data),
   ("write".data, ["wrote", "written", "writing", "writes"].map String.data),
   ("stand".data, ["stood", "standing", "stands"].map String.data),
   ("hear".data, ["heard", "hearing", "hears"].map String.data),
   ("let".data, ["let", "letting", "lets"].map String.data),
   ("mean".data, ["meant", "meaning", "means"].map String.data),
   ("set".data, ["set", "setting", "sets"].map String.data),
   ("meet".data, ["met", "meeting", "meets"].map String.data),
   ("run".data, ["ran", "running", "runs"].map String.data),
   ("pay".data, ["paid", "paying", "pays"].map String.data),
   ("sit".data, ["sat", "sitting", "sits"].map String.data),
   ("speak".data, ["spoke", "spoken", "speaking", "speaks"].map String.data),
   ("lie".data, ["lay", "lain", "lying", "lies"].map String.data),
   ("lead".data, ["led", "leading", "leads"].map String.data),
   ("read".data, ["read", "reading", "reads"].map String.data),
   ("grow".data, ["grew", "grown", "growing", "grows"].map String.data),
   ("fall".data, ["fell", "fallen", "falling", "falls"].map String.data),
   ("send".data, ["sent", "sending", "sends"].map String.data),
   ("build".data, ["built", "building", "builds"].map String.data),
   ("understand".data, ["understood", "understanding", "understands"].map String.data),
   ("draw".data, ["drew", "drawn", "drawing", "draws"].map String.data),
   ("break".data, ["broke", "broken", "breaking", "breaks"].map String.data),
   ("spend".data, ["spent", "spending", "spends"].map String.data),
   ("cut".data, ["cut", "cutting", "cuts"].map String.data),
   ("rise".data, ["rose", "risen", "rising", "rises"].map String.data),
   ("drive".data, ["drove", "driven", "driving", "drives"].map String.data),
   ("buy".data, ["bought", "buying", "buys"].map String.data),
   ("wear".data, ["wore", "worn", "wearing", "wears"].map String.data),
   ("swear".data, ["swore", "sworn", "swearing", "swears"].map String.data),
   ("drink".data, ["drank", "drunk", "drinking", "drinks"].map String.data),
   ("eat".data, ["ate", "eaten", "eating", "eats"].map String.data),
   ("choose".data, ["chose", "chosen", "choosing", "chooses"].map String.data)]

/-- Association-list upsert (JS `Map.prototype.set`: the last write for
a key wins; lookups read the current value). -/
def mapSet (m : List (JStr × JStr)) (k v : JStr) : List (JStr × JStr) :=
  if (m.find? (fun e => e.1 == k)).isSome then
    m.map fun e => if e.1 == k then (e.1, v) else e
  else m ++ [(k, v)]

/-- `irregularReverse` (src/index.js lines 397-404): every base and
every form maps back to the base. -/
def irregularReverse : List (JStr × JStr) :=
  irregularVerbMap.foldl
    (fun m e =>
      (e.2.foldl (fun m2 f => mapSet m2 (lowStr f) e.1) (mapSet m (lowStr e.1) e.1)))
    []

/-- `irregularFormsForTerm` (src/index.js lines 405-415). -/
def irregularFormsForTerm (term : JStr) : List JStr :=
  let hl := splitHeadLast term
  match (irregularReverse.find? (fun e => e.1 == lowStr hl.2)).map Prod.snd with
  | none => []
  | some baseKey =>
      let pre := if hl.1 ≠ [] then hl.1 ++ [' '] else []
      let forms := ((irregularVerbMap.find? (fun e => e.1 == baseKey)).map Prod.snd).getD []
      forms.foldl (fun acc f => setAdd acc (pre ++ f)) (setAdd [] (pre ++ baseKey))

/-- `conjugationsForTerm` with the default options: `useCompromise` is
false (the external `compromise` NLP library is not loaded), so the
function returns no forms (src/index.js lines 417-434). -/
def conjugationsForTerm (_term : JStr) : List JStr := []

/-! ## The four-stage per-article matcher
(`findMatchingArticles`, src/index.js lines 259-579) -/

/-- One entry of the article term map (`buildArticleTermMap`): the
parenthetical-stripped headword and its lowercasing. -/
structure TermObj where
  orig : JStr
  lower : JStr
deriving DecidableEq, Repr

/-- The alternates evaluated by stages 1 and 2: the term itself, its
plurals, its irregular-verb forms, and (disabled here) conjugations.
The JS `Set` only removes duplicates, which cannot change the result of
the existential tests below. -/
def altsForTerm (t : JStr) : List JStr :=
  t :: (pluralizeTerm t ++ irregularFormsForTerm t ++ conjugationsForTerm t)

/-- Stage 1: case-sensitive `\bALT\b` over all alternates; the first
matching term's original headword is recorded. -/
def stage1Hit (txt : JStr) (terms : List TermObj) : Option JStr :=
  terms.findSome? fun tobj =>
    if (altsForTerm tobj.orig).any (fun alt => wbTest alt txt) then some tobj.orig else none

/-- Stage 2: the same test case-insensitively. -/
def stage2Hit (txt : JStr) (terms : List TermObj) : Option JStr :=
  terms.findSome? fun tobj =>
    if (altsForTerm tobj.orig).any (fun alt => wbTest (lowStr alt) (lowStr txt)) then
      some tobj.orig
    else none

/-- Stage 3: case-sensitive `(?:^|\b|[—–-])TERM` on the original term
only (src/index.js lines 475-487). -/
def stage3Hit (txt : JStr) (terms : List TermObj) : Option JStr :=
  terms.findSome? fun tobj =>
    if decide (tobj.orig ≠ []) && prefixBoundaryTest tobj.orig txt then some tobj.orig
    else none

/-- One stripped form of stage 4 and whether it was stripped. -/
def addIfForm (results : List (JStr × Bool)) (pre form : JStr) (isStripped : Bool) :
    List (JStr × Bool) :=
  let v := lowStr (jsTrim (pre ++ form))
  if v ≠ [] ∧ 3 ≤ v.length then results ++ [(v, isStripped)] else results

/-- `addFromLast` of `strippedForms` (src/index.js lines 502-515). -/
def addFromLast (pre w : JStr) : List (JStr × Bool) :=
  let lw := lowStr w
  if lw = [] then []
  else
    let r := addIfForm [] pre lw false
    let r := if endsWithCI "y".data lw then addIfForm r pre lw.dropLast true else r
    let r := if endsWithCI "e".data lw then addIfForm r pre lw.dropLast true else r
    let r := if endsWithCI "ing".data lw then
        addIfForm r pre ((lw.dropLast.dropLast).dropLast) true else r
    let r := if endsWithCI "ed".data lw then addIfForm r pre (lw.dropLast.dropLast) true else r
    let r := if endsWithCI "es".data lw then addIfForm r pre (lw.dropLast.dropLast) true else r
    let r := if endsWithCI "s".data lw && !endsWithCI "ss".data lw then
        addIfForm r pre lw.dropLast true else r
    r

/-- `addYEOnlyFromLast` of `strippedForms` (src/index.js lines 517-526). -/
def addYEOnlyFromLast (pre w : JStr) : List (JStr × Bool) :=
  let lw := lowStr w
  if lw = [] then []
  else
    let r := addIfForm [] pre lw false
    let r := if endsWithCI "y".data lw then addIfForm r pre lw.dropLast true else r
    let r := if endsWithCI "e".data lw then addIfForm r pre lw.dropLast true else r
    r

/-- `strippedForms` (src/index.js lines 490-538): the base last word
with all strips, then only `y`/`e` strips for each conjugation (none
here) and irregular form that keeps the same head. -/
def strippedForms (base : JStr) : List (JStr × Bool) :=
  let hl := splitHeadLast base
  let pre := if hl.1 ≠ [] then hl.1 ++ [' '] else []
  let fromLast := addFromLast pre hl.2
  let fromConj := (conjugationsForTerm base).foldl
    (fun acc x =>
      let hl2 := splitHeadLast x
      if hl2.1 == hl.1 then acc ++ addYEOnlyFromLast pre hl2.2 else acc) []
  let fromIrr := (irregularFormsForTerm base).foldl
    (fun acc x =>
      let hl2 := splitHeadLast x
      if hl2.1 == hl.1 then acc ++ addYEOnlyFromLast pre hl2.2 else acc) []
  fromLast ++ fromConj ++ fromIrr

/-- The grammatical endings accepted after a stripped form in stage 4. -/
def strippedSuffixes : List JStr :=
  ["ed", "ing", "er", "est", "es", "ies", "s", "d", "n", "t"].map String.data

/-- Stage 4 stripped-form test: `FORM(ed|ing|er|est|es|ies|s|d|n|t)\b`
case-insensitively against the lowercased phrase. -/
def strippedFormTest (f tl : JStr) : Bool :=
  (List.range (tl.length + 1)).any fun i =>
    strippedSuffixes.any fun suf =>
      occursAt (f ++ suf) tl i && boundaryAt tl (i + (f ++ suf).length)

/-- Stage 4 (src/index.js lines 488-571): each stripped form either
requires a grammatical ending after it, or (unstripped) the boundary
prefix test case-insensitively. -/
def stage4Hit (txt : JStr) (terms : List TermObj) : Option JStr :=
  terms.findSome? fun tobj =>
    if (strippedForms tobj.orig).any (fun fr =>
        if fr.2 then strippedFormTest fr.1 (lowStr txt)
        else prefixBoundaryTest fr.1 (lowStr txt)) then
      some tobj.orig
    else none

/-- The per-article outcome of the staged matcher. -/
structure StageOutcome where
  stage : Nat
  termHit : JStr
  truncated : Bool
deriving DecidableEq, Repr

/-- The four stages tried in order; 0 means no match. -/
def articleStage (txt : JStr) (terms : List TermObj) : StageOutcome :=
  match stage1Hit txt terms with
  | some h => ⟨1, h, false⟩
  | none =>
    match stage2Hit txt terms with
    | some h => ⟨2, h, false⟩
    | none =>
      match stage3Hit txt terms with
      | some h => ⟨3, h, false⟩
      | none =>
        match stage4Hit txt terms with
        | some h => ⟨4, h, false⟩
        | none => ⟨0, [], false⟩

/-- One element of `perArticleMatches`. -/
structure PAMatch where
  art : String
  stage : Nat
  termHit : JStr
  truncated : Bool
deriving DecidableEq, Repr

/-- `termMap.get(art) || []`. -/
def termMapGet (termMap : List (String × List TermObj)) (art : String) : List TermObj :=
  ((termMap.find? (fun e => e.1 == art)).map Prod.snd).getD []

/-- `findMatchingArticles` (src/index.js lines 259-579): the earliest
stage at which each article's terms match; articles with no match are
dropped. -/
def findMatchingArticles (glq : JStr) (articlesList : List String)
    (termMap : List (String × List TermObj)) : List PAMatch :=
  articlesList.filterMap fun art =>
    let r := articleStage glq (termMapGet termMap art)
    if 0 < r.stage then some ⟨art, r.stage, r.termHit, r.truncated⟩ else none

/-! ## Candidate prioritization and article choice
(`prioritizeArticles`, `getDisambiguationArticles`,
`chooseArticleByGlQuote`; src/index.js lines 229-829) -/

/-- Lexicographic code-point comparison of character lists; models
`String.prototype.localeCompare` on the lower-kebab slugs the selector
sorts (the result only matters as a total order). -/
def charListLe : JStr → JStr → Bool
  | [], _ => true
  | _ :: _, [] => false
  | a :: as, b :: bs =>
      if a.toNat < b.toNat then true
      else if b.toNat < a.toNat then false
      else charListLe as bs

/-- `text.includes(sub)`. -/
def includesSub (s sub : JStr) : Bool :=
  (List.range (s.length + 1)).any fun i => occursAt sub s i

/-- `slugOf` (src/index.js line 238): the last `/`-segment, lowercased. -/
def slugOf (art : String) : JStr :=
  lowStr (((art.data.splitOn '/').getLastD art.data))

/-- `/^(H|G)\d+[a-f]$/.test(sid)` (uppercase book letter, digits, one
lowercase homograph letter). -/
def strongHasSuffix (sid : String) : Bool :=
  match sid.data with
  | c :: rest =>
      (c == 'H' || c == 'G') &&
      (let ds := takeDigits rest
       decide (ds ≠ []) &&
        (match rest.drop ds.length with
         | [l] => 97 ≤ l.toNat && l.toNat ≤ 102
         | _ => false))
  | [] => false

/-- `sid.slice(0, -1)`. -/
def strongBase (sid : String) : String :=
  String.mk sid.data.dropLast

/-- `strongPivot[sid] || []`, the Strong's-to-articles index as an
association list (each value list is duplicate-free, coming from a JS
`Set`). -/
def pivotGet (strongPivot : List (String × List String)) (sid : String) : List String :=
  ((strongPivot.find? (fun e => e.1 == sid)).map Prod.snd).getD []

/-- The candidate lookup with homograph-base fallback, shared by
`prioritizeArticles` and `getDisambiguationArticles`. -/
def candidatesFor (strongPivot : List (String × List String)) (strongId : String) :
    List String :=
  let c := pivotGet strongPivot strongId
  if c = [] ∧ strongHasSuffix strongId then pivotGet strongPivot (strongBase strongId)
  else c

/-- Sort key of tier 1: longer slug first. -/
def slugLenGe (a b : String) : Prop :=
  (slugOf b).length ≤ (slugOf a).length

instance : DecidableRel slugLenGe := fun _ _ => Nat.decLe _ _

instance : IsTotal String slugLenGe := ⟨fun _ _ => Nat.le_total _ _⟩

instance : IsTrans String slugLenGe := ⟨fun _ _ _ h1 h2 => Nat.le_trans h2 h1⟩

/-- `groupRank` (src/index.js line 247). -/
def groupRank (a : String) : Nat :=
  if a.startsWith "kt/" then 0 else if a.startsWith "names/" then 1 else 2

/-- Sort key of tier 2: group rank, then slug order. -/
def restOrder (a b : String) : Prop :=
  groupRank a < groupRank b ∨
    (groupRank a = groupRank b ∧ charListLe (slugOf a) (slugOf b) = true)

instance : DecidableRel restOrder := fun _ _ => by unfold restOrder; infer_instance

/-- `prioritizeArticles` (src/index.js lines 229-256): articles whose
slug occurs in the phrase, longer slugs first; then the rest grouped
`kt/`, `names/`, other, each alphabetically by slug. -/
def prioritizeArticles (glq : JStr) (strongId : String)
    (strongPivot : List (String × List String)) : List String :=
  let candidates := candidatesFor strongPivot strongId
  if candidates = [] then []
  else
    let text := lowStr glq
    let slugMatched :=
      (candidates.filter fun a => includesSub text (slugOf a)).insertionSort slugLenGe
    let rest := candidates.filter fun a => !slugMatched.contains a
    let restSorted := rest.insertionSort restOrder
    slugMatched ++ restSorted

/-- The `strongs` data of the full TW JSON, per article. -/
abbrev TwMap := List (String × List (List String))

/-- `getDisambiguationArticles` (src/index.js lines 582-609): the
Strong's candidates plus every article whose `strongs` lists are all
empty.  (`twMap` values are modelled as lists, so the
non-array guard of the source is always false.) -/
def getDisambiguationArticles (strongId : String)
    (strongPivot : List (String × List String)) (twMap : TwMap) : List String :=
  let base := candidatesFor strongPivot strongId
  let start := base.foldl (fun acc a => if acc.contains a then acc else acc ++ [a]) []
  twMap.foldl
    (fun acc e =>
      let hasEmpty : Bool := e.2.isEmpty || e.2.all (fun sub => sub.isEmpty)
      if hasEmpty && !acc.contains e.1 then acc ++ [e.1] else acc)
    start

/-- The variant-flag suppression of `chooseArticleByGlQuote`
(src/index.js lines 641-826): a stage ≥ 3 match is a variant unless a
term of the chosen article, one of its plurals, or an `-ing`/`-ed`/
irregular form of the matched term matches the phrase on word
boundaries case-insensitively. -/
def suppressVariant (textOrig : JStr) (chosenMatch : PAMatch)
    (termMap : List (String × List TermObj)) : JStr :=
  let isVariant := 3 ≤ chosenMatch.stage ∨ chosenMatch.truncated = true
  let variantTerm := if isVariant then chosenMatch.termHit else []
  if variantTerm = [] then variantTerm
  else
    let termObjs := termMapGet termMap chosenMatch.art
    let hasWordBound := termObjs.any fun tobj =>
      decide (tobj.orig ≠ []) && wbTest (lowStr tobj.orig) (lowStr textOrig)
    if hasWordBound then []
    else
      let hasPluralBound := termObjs.any fun tobj =>
        decide (tobj.orig ≠ []) &&
          (pluralizeTerm tobj.orig).any fun p => wbTest (lowStr p) (lowStr textOrig)
      if hasPluralBound then []
      else
        let base := chosenMatch.termHit
        let infl := (irregularFormsForTerm base).foldl setAdd
          ((ingEdFormsForTerm base).foldl setAdd [])
        if infl.any (fun p => wbTest (lowStr p) (lowStr textOrig)) then []
        else variantTerm

/-- The result record of `chooseArticleByGlQuote`. -/
structure ChooseResult where
  article : String
  disamb : String
  variantTerm : JStr
deriving DecidableEq, Repr

/-- Order of the final tie-break sort: by index in the prioritized list
(the `artIndex` map of src/index.js line 629; on the duplicate-free
prioritized list `List.indexOf` coincides with it). -/
def idxLe (prioritized : List String) (a b : PAMatch) : Prop :=
  prioritized.indexOf a.art ≤ prioritized.indexOf b.art

instance (l : List String) : DecidableRel (idxLe l) := fun _ _ => Nat.decLe _ _

instance (l : List String) : IsTotal PAMatch (idxLe l) := ⟨fun _ _ => Nat.le_total _ _⟩

instance (l : List String) : IsTrans PAMatch (idxLe l) := ⟨fun _ _ _ => Nat.le_trans⟩

/-- `Math.min(...)` over the stages of a non-empty match list. -/
def stageMin : List Nat → Nat
  | [] => 0
  | s :: rest => rest.foldl Nat.min s

/-- `chooseArticleByGlQuote` (src/index.js lines 611-829): prioritize
the Strong's candidates, run the staged matcher, pick the best stage
and the earliest prioritized article at it, compute the disambiguation
list over the enlarged candidate set, and the variant flag. -/
def chooseArticleByGlQuote (glq : JStr) (strongId : String)
    (strongPivot : List (String × List String))
    (termMap : List (String × List TermObj)) (twMap : TwMap) : Option ChooseResult :=
  let prioritized := prioritizeArticles glq strongId strongPivot
  if prioritized = [] then none
  else
    let prioritizedMatches := findMatchingArticles glq prioritized termMap
    if prioritizedMatches = [] then none
    else
      let bestStage := stageMin (prioritizedMatches.map (·.stage))
      let bestMatches := prioritizedMatches.filter (fun m => m.stage == bestStage)
      match bestMatches.insertionSort (idxLe prioritized) with
      | [] => none
      | chosenMatch :: _ =>
          let disambArticles := getDisambiguationArticles strongId strongPivot twMap
          let allMatches := findMatchingArticles glq disambArticles termMap
          let matchesList := allMatches.map (·.art)
          let disamb :=
            if 1 < matchesList.length then
              "(" ++ String.intercalate ", " matchesList ++ ")"
            else ""
          let variantTerm := suppressVariant glq chosenMatch termMap
          some ⟨chosenMatch.art, disamb, variantTerm⟩

/-! ## The prefix trie and the verse scanner
(current `twl-matcher.js`: the revision exporting `buildTermTrie` and
`scanVerseMatches` used by the English-first driver; its trie is
case-insensitive, extends matches over apostrophes, and advances the
scan by the unextended match length) -/

/-- A term record stored at a trie node. -/
structure TermData where
  term : JStr
  articles : List String
  matchedText : JStr
  priority : Nat
deriving DecidableEq, Repr

/-- A trie node: object keys become an insertion-ordered child list. -/
inductive Trie where
  | node (terms : List TermData) (children : List (Char × Trie))

def Trie.terms : Trie → List TermData
  | .node ts _ => ts

def Trie.children : Trie → List (Char × Trie)
  | .node _ ch => ch

/-- `node[char]` lookup. -/
def Trie.findChild (t : Trie) (c : Char) : Option Trie :=
  ((t.children.find? fun e => e.1 == c)).map Prod.snd

/-- `_insertIntoTree`: walk/create child nodes along the key and push
the term data at the end node. -/
def Trie.insertAux : Trie → JStr → TermData → Trie
  | .node ts ch, [], d => .node (ts ++ [d]) ch
  | .node ts ch, c :: rest, d =>
      .node ts
        (if (ch.find? fun e => e.1 == c).isSome then
          ch.map fun e => if e.1 == c then (e.1, insertAux e.2 rest d) else e
        else ch ++ [(c, insertAux (.node [] []) rest d)])

/-- `PrefixTrie.insert`: keys are lowercased before insertion. -/
def Trie.insert (root : Trie) (term originalTerm : JStr) (articles : List String)
    (isOriginal : Bool) : Trie :=
  Trie.insertAux root (lowStr term)
    ⟨originalTerm, articles, lowStr term, if isOriginal then 0 else 1⟩

/-- The character test from `get?` for the apostrophe class. -/
def aposAt (s : JStr) (i : Nat) : Bool :=
  match s.get? i with
  | some c => jsApos c
  | none => false

/-- The character test from `get?` for `[\s\p{P}]`. -/
def spacePunctAt (s : JStr) (i : Nat) : Bool :=
  match s.get? i with
  | some c => jsSpacePunct c
  | none => false

/-- Backward extension over a possessive apostrophe: when the character
before the match start is an apostrophe immediately preceded by a word
character, extend to the start of that word (the `while` loop walks the
word run; it is modelled by `takeWhile` over the reversed prefix). -/
def extendStartPos (orig : JStr) (startPos : Nat) : Nat :=
  if 1 ≤ startPos ∧ aposAt orig (startPos - 1) = true then
    if 2 ≤ startPos ∧ wordAt orig (startPos - 2) = true then
      startPos - 1 - ((orig.take (startPos - 1)).reverse.takeWhile jsWordChar).length
    else startPos
  else startPos

/-- Forward extension over a possessive apostrophe: an apostrophe at the
match end is always included; a word run immediately after it is also
included. -/
def extendEndPos (orig : JStr) (endPos : Nat) : Nat :=
  if endPos < orig.length ∧ aposAt orig endPos = true then
    if wordAt orig (endPos + 1) = true then
      (endPos + 1) + ((orig.drop (endPos + 1)).takeWhile jsWordChar).length
    else endPos + 1
  else endPos

/-- A candidate match produced by the tree walk.  `extStart`/`extEnd`
record the span of `matchedText` in the scanned text (they are computed
by the source as `extendedStartPos`/`extendedEndPos`; keeping them as
fields lets the claims speak about `(start, end, article)` spans). -/
structure RawMatch where
  term : JStr
  articles : List String
  matchedText : JStr
  length : Nat
  originalLength : Nat
  priority : Nat
  extStart : Nat
  extEnd : Nat
deriving DecidableEq, Repr

/-- Collection of matches at a node whose span is `startPos..currPos`:
extend over apostrophes, test both boundaries, and emit one candidate
per stored term record. -/
def collectMatches (orig : JStr) (startPos currPos : Nat) (ts : List TermData) :
    List RawMatch :=
  let matchLength := currPos - startPos
  let es := extendStartPos orig startPos
  let ee := extendEndPos orig currPos
  let matchedText := (orig.drop es).take (ee - es)
  let isStartB := decide (es = 0) || spacePunctAt orig (es - 1) || !wordAt orig (es - 1)
  let isEndB := decide (orig.length ≤ ee) || spacePunctAt orig ee || !wordAt orig ee
  if isStartB && isEndB then
    ts.map fun d =>
      ⟨d.term, d.articles, matchedText, matchedText.length, matchLength, d.priority, es, ee⟩
  else []

/-- The walk of `_findMatchesInTree` from `startPos`: follow children
along the remaining search text (`rem` is the search text from `pos`),
collecting at every node that stores terms. -/
def trieWalk (orig : JStr) (startPos : Nat) : Trie → Nat → JStr → List RawMatch
  | _, _, [] => []
  | t, pos, c :: rem =>
      match t.findChild c with
      | none => []
      | some t' =>
          (if t'.terms ≠ [] then collectMatches orig startPos (pos + 1) t'.terms else [])
            ++ trieWalk orig startPos t' (pos + 1) rem

/-- The sort order of the returned candidates: longer (extended) match
first, then lower priority value (originals before variants); ties are
left equivalent, as the comparator returns 0. -/
def matchOrder (a b : RawMatch) : Prop :=
  b.length < a.length ∨ (b.length = a.length ∧ a.priority ≤ b.priority)

instance : DecidableRel matchOrder := fun _ _ => by unfold matchOrder; infer_instance

instance : IsTotal RawMatch matchOrder :=
  ⟨fun a b => by unfold matchOrder; omega⟩

instance : IsTrans RawMatch matchOrder :=
  ⟨fun a b c h1 h2 => by unfold matchOrder at *; omega⟩

/-- `_findMatchesInTree` (current twl-matcher.js lines 221-321). -/
def findMatchesInTree (root : Trie) (searchText : JStr) (startPos : Nat) (orig : JStr) :
    List RawMatch :=
  (trieWalk orig startPos root startPos (searchText.drop startPos)).insertionSort matchOrder

/-- `PrefixTrie.findMatches`: always case-insensitive, walking the
lowercased text while extracting spans from the original. -/
def Trie.findMatches (root : Trie) (text : JStr) (startPos : Nat) : List RawMatch :=
  findMatchesInTree root (lowStr text) startPos text

/-! ### The scanner driver (`findMatches`/`scanVerseMatches`) -/

/-- Normalization step 1: `[–—―]` to a space. -/
def normDashChar (c : Char) : Char :=
  if c = '–' ∨ c = '—' ∨ c = '―' then ' ' else c

/-- Normalization steps 2 and 3 as written in the current source: the
double-quote class contains only the straight double quote and the
apostrophe class only the straight apostrophe, so both replacements are
identities. -/
def normQuoteChar (c : Char) : Char :=
  if c = '"' then '"' else c

def normAposChar (c : Char) : Char :=
  if c = Char.ofNat 39 then Char.ofNat 39 else c

def normalizeText (s : JStr) : JStr :=
  ((s.map normDashChar).map normQuoteChar).map normAposChar

/-- The skip loop: whitespace and punctuation, but not apostrophes. -/
def skipLen (rem : JStr) : Nat :=
  (rem.takeWhile fun c => jsSpacePunct c && !jsApos c).length

def skipPos (s : JStr) (pos : Nat) : Nat :=
  pos + skipLen (s.drop pos)

/-- One emitted scanner match. -/
structure DriverMatch where
  term : JStr
  articles : List String
  preferredArticle : Option String
  matchedText : JStr
  context : JStr
  priority : Nat
deriving DecidableEq, Repr

/-- `Set`-union of the articles of all candidates tying with the best
match on length and priority, in encounter order. -/
def bestArticles (cand : List RawMatch) (best : RawMatch) : List String :=
  (cand.filter fun m => m.length == best.length && m.priority == best.priority).foldl
    (fun acc m => m.articles.foldl (fun a x => if a.contains x then a else a ++ [x]) acc) []

/-- The orphan-`god` capitalization rule: when the matched surface is
`god` (case-insensitively) and both `kt/god` and `kt/falsegod` are among
the candidate articles, a capitalized surface prefers `kt/god`, a
lowercase one `kt/falsegod`. -/
def godRule (s : JStr) (pos : Nat) (best : RawMatch) (arts : List String) : Option String :=
  if lowStr best.matchedText = "god".data ∧ 1 < arts.length then
    let origMatched := (s.drop pos).take best.length
    if arts.contains "kt/god" ∧ arts.contains "kt/falsegod" then
      if origMatched = "God".data ∨ origMatched.headD ' ' = 'G' then some "kt/god"
      else some "kt/falsegod"
    else none
  else none

/-- The scan loop of `findMatches` (current twl-matcher.js lines
359-447).  The fuel counts loop iterations; since every iteration
advances the position by at least one, `s.length + 1` is always
enough. -/
def scanLoopF (root : Trie) (s : JStr) : Nat → Nat → JStr → List DriverMatch
  | 0, _, _ => []
  | fuel + 1, pos, processed0 =>
      let p := skipPos s pos
      let processed := processed0 ++ (s.drop pos).take (p - pos)
      if p < s.length then
        match Trie.findMatches root s p with
        | [] =>
            let move :=
              match (s.drop p).findIdx? jsSpacePunct with
              | none => 1
              | some i => max 1 i
            scanLoopF root s fuel (p + move) (processed ++ (s.drop p).take move)
        | best0 :: rest0 =>
            let arts := bestArticles (best0 :: rest0) best0
            let pref := godRule s p best0 arts
            let matched := best0.matchedText
            let ctx := processed ++ '[' :: (matched ++ ']' :: s.drop (p + best0.length))
            let advanceBy := if best0.originalLength ≠ 0 then best0.originalLength
              else best0.length
            ⟨best0.term, arts, pref, matched, ctx, best0.priority⟩
              :: scanLoopF root s fuel (p + advanceBy) (processed ++ (s.drop p).take advanceBy)
      else []

/-- `scanVerseMatches` (= the exported `findMatches`): normalize, then
scan from position 0. -/
def scanVerseMatches (verseText : JStr) (root : Trie) : List DriverMatch :=
  let normalizedText := normalizeText verseText
  scanLoopF root normalizedText (normalizedText.length + 1) 0 []

/-- The `(start, end, article)` span set produced by scanning a text
with the trie: one triple per candidate article at every start
position. -/
def scanTriples (root : Trie) (text : JStr) : List (Nat × Nat × String) :=
  (List.range (text.length + 1)).flatMap fun p =>
    (Trie.findMatches root text p).flatMap fun m =>
      m.articles.map fun a => (m.extStart, m.extEnd, a)

/-! ## The ID generator of `src/utils/twl-matcher.js`

`generateId` draws a random letter and three random alphanumerics, but
its return statement is `return 'abcd' || id;`: the non-empty string
literal is truthy, so the drawn id is discarded and the constant
`"abcd"` is returned for every row.  The random draws are modelled as a
stream `rnd : Nat → Nat` of draw results (`Math.floor(Math.random()*n)`
is `rnd k % n`). -/

def lettersAlphabet : List Char :=
  "abcdefghijklmnopqrstuvwxyz".data

def lettersAndDigitsAlphabet : List Char :=
  "abcdefghijklmnopqrstuvwxyz0123456789".data

/-- `generateId` from `src/utils/twl-matcher.js` (lines 296-304). -/
def generateId (rnd : Nat → Nat) : String :=
  let first := (lettersAlphabet.get? (rnd 0 % lettersAlphabet.length)).getD 'a'
  let c1 := (lettersAndDigitsAlphabet.get? (rnd 1 % lettersAndDigitsAlphabet.length)).getD 'a'
  let c2 := (lettersAndDigitsAlphabet.get? (rnd 2 % lettersAndDigitsAlphabet.length)).getD 'a'
  let c3 := (lettersAndDigitsAlphabet.get? (rnd 3 % lettersAndDigitsAlphabet.length)).getD 'a'
  let id := String.mk [first, c1, c2, c3]
  -- JS `return 'abcd' || id;`: `'abcd'` is truthy, `id` is dead.
  if "abcd".length ≠ 0 then "abcd" else id

/-! ## The external-failure fallbacks of `generateTwlByBook`
(`src/index.js`, lines 959-1035) -/

/-- The GL→OL conversion step: on success with a non-empty output the
TSV is replaced, on failure (or empty output) the TSV is left as it is.
The external `convertGLQuotes2OLQuotes` call is represented by its
outcome. -/
def glOlConvertStep (tsv : String) (outcome : Except Unit String) : String :=
  match outcome with
  | Except.ok s => if s.length ≠ 0 then s else tsv
  | Except.error _ => tsv

/-- The per-row fallback applied when `addGLQuoteCols` fails
(`src/index.js`, lines 1013-1027): rebuild each data row as
`[Reference, ID, Tags, OrigWords, Occurrence, TWLink, OrigWords,
Occurrence, Variant of, Disambiguation]`, reading absent cells as `""`. -/
def addGlFallbackRow (cols : List String) : List String :=
  let g := fun (i : Nat) => cols.getD i ""
  [g 0, g 1, g 2, g 3, g 4, g 5, g 3, g 4, g 6, g 7]

/-- The header written by the `addGLQuoteCols` failure fallback. -/
def addGlFallbackHeader : List String :=
  ["Reference", "ID", "Tags", "OrigWords", "Occurrence", "TWLink",
   "GLQuote", "GLOccurrence", "Variant of", "Disambiguation"]

/-- The whole `addGLQuoteCols` failure fallback on a structured TSV
(header row and data rows of cells). -/
def addGlFallback (rows : List (List String)) : List (List String) :=
  match rows with
  | [] => []
  | _ :: dataRows => addGlFallbackHeader :: dataRows.map addGlFallbackRow

/-! ## The USFM verse parser (`src/utils/usfm-alignment-remover.js`) -/

/-- One `\c N` or `\v N` marker found by the split regex
`\\([cv])\s*(\d+)`: the tag (`true` for `c`, `false` for `v`), the
number, and the text up to the next marker. -/
structure CvPart where
  isChapter : Bool
  num : Nat
  text : List Char
deriving DecidableEq, Repr

/-- Try to match the split pattern `\\([cv])\s*(\d+)` at the head of
`s`; on success return the tag, the number, and the rest of the input. -/
def matchCvAt : List Char → Option (Bool × Nat × List Char)
  | bs :: tag :: rest =>
      if bs = Char.ofNat 92 ∧ (tag = 'c' ∨ tag = 'v') then
        let ws := takeWs rest
        let afterWs := rest.drop ws.length
        let ds := takeDigits afterWs
        if ds = [] then none
        else some (tag = 'c', digitsToNat ds, afterWs.drop ds.length)
      else none
  | _ => none

/-- Split the input on each (leftmost, non-overlapping) occurrence of
`\\([cv])\\s*(\\d+)`, as `String.prototype.split` with capture groups
does: the text before the first marker, then each marker with its
trailing text.  The fuel argument only bounds the number of markers; one
unit is spent per consumed character, so `s.length` is always enough. -/
def splitCvF : Nat → List Char → List Char × List CvPart
  | _, [] => ([], [])
  | 0, s => (s, [])
  | fuel + 1, c :: rest =>
      match matchCvAt (c :: rest) with
      | some (isC, n, after) =>
          let (seg, parts) := splitCvF fuel after
          ([], ⟨isC, n, seg⟩ :: parts)
      | none =>
          let (seg, parts) := splitCvF fuel rest
          (c :: seg, parts)

def splitCv (s : List Char) : List Char × List CvPart :=
  splitCvF s.length s

/-- The global replacement `text.replace(/\\s+/g, ' ')`: each maximal
whitespace run becomes a single space.  The boolean records whether the
previous character belonged to a whitespace run. -/
def wsRunsGo : List Char → Bool → List Char
  | [], _ => []
  | c :: rest, inRun =>
      if jsSpaceChar c then
        if inRun then wsRunsGo rest true else ' ' :: wsRunsGo rest true
      else c :: wsRunsGo rest false

def wsRunsToSpace (s : List Char) : List Char :=
  wsRunsGo s false

/-- Collapse whitespace runs to single spaces and trim:
`text.replace(/\s+/g, ' ').trim()`. -/
def collapseWs (s : List Char) : List Char :=
  jsTrim (wsRunsToSpace s)

/-- The chapter/verse map under construction: an association list
`chapter ↦ (verse ↦ text)`, insertion-ordered like a JS object (the
claims below observe it only through `findVerse`). -/
abbrev VersesObj := List (Nat × List (Nat × List Char))

/-- Lookup of one verse text. -/
def findVerse (m : VersesObj) (c v : Nat) : Option (List Char) :=
  match m.find? (fun e => e.1 == c) with
  | none => none
  | some (_, vs) => (vs.find? (fun e => e.1 == v)).map Prod.snd

/-- `versesObj[currentChapter] = versesObj[currentChapter] || {}`. -/
def ensureChapter (m : VersesObj) (c : Nat) : VersesObj :=
  match m.find? (fun e => e.1 == c) with
  | some _ => m
  | none => m ++ [(c, [])]

/-- `versesObj[currentChapter][number] = cleanText` (overwrite or add). -/
def setVerse (m : VersesObj) (c v : Nat) (t : List Char) : VersesObj :=
  m.map fun e =>
    if e.1 == c then
      (e.1,
        if (e.2.find? (fun p => p.1 == v)).isSome then
          e.2.map fun p => if p.1 == v then (p.1, t) else p
        else e.2 ++ [(v, t)])
    else e

/-- Processing one split part of `parseUsfmToVerses`: `\c` updates the
current chapter and ensures its entry, `\v` stores the collapsed text if
it is non-empty. -/
def cvStep (st : Nat × VersesObj) (p : CvPart) : Nat × VersesObj :=
  let (cur, m) := st
  if p.isChapter then
    (p.num, ensureChapter m p.num)
  else
    let m := ensureChapter m cur
    let clean := collapseWs p.text
    if clean ≠ [] then (cur, setVerse m cur p.num clean) else (cur, m)

/-- `parseUsfmToVerses` from `src/utils/usfm-alignment-remover.js`
(lines 74-104): split on the chapter/verse markers and fold, starting
from chapter 1. -/
def parseUsfmToVerses (usfm : List Char) : VersesObj :=
  ((splitCv usfm).2.foldl cvStep (1, [])).2

/-- The boundary-or-dash condition of stage 3, as a proposition. -/
def PrefixBoundaryPos (t s : JStr) : Prop :=
  ∃ i, occursAt t s i = true ∧
    (i = 0 ∨ boundaryAt s i = true ∨
      (1 ≤ i ∧ ∃ c, s.get? (i - 1) = some c ∧ jsSelDash c = true))

/-- The change a lowercased scan makes to one raw match: only the
extracted surface is lowercased. -/
def lowRaw (m : RawMatch) : RawMatch :=
  { m with matchedText := lowStr m.matchedText }

/-- Concrete scanner input for the C7 witness: a trie holding the
plural variant `prophets` of headword `prophet`, scanned over
`prophets' message`, where the apostrophe extension makes the extended
span one character longer than the matched trie key. -/
def c7root : Trie :=
  Trie.insert (.node [] []) "prophets".data "prophet".data ["kt/prophet"] false

def c7s : JStr := "prophets' message".data

def c7best : RawMatch :=
  ⟨"prophet".data, ["kt/prophet"], "prophets'".data, 9, 8, 1, 0, 9⟩

/-! ## The English-first row emission of `generateTwlByBook`
(src/index.js lines 846-957) -/

/-- The local `pluralizeWord` helper of `generateTwlByBook`
(src/index.js lines 868-875); unlike the top-level one it has no
irregular table. -/
def genPluralizeWord (w : JStr) : JStr :=
  if endsConsY w then w.dropLast ++ "ies".data
  else if endsWithCI "s".data w || endsWithCI "x".data w || endsWithCI "z".data w ||
      endsWithCI "ch".data w || endsWithCI "sh".data w then w ++ "es".data
  else if endsWithCI "f".data w &&
      !(endsWithCI "roof".data w || endsWithCI "belief".data w ||
        endsWithCI "chief".data w || endsWithCI "proof".data w) then
    w.dropLast ++ "ves".data
  else if endsWithCI "fe".data w then (w.dropLast).dropLast ++ "ves".data
  else if endsWithCI "o".data w then w ++ "es".data
  else w ++ "s".data

/-- `edForm` (src/index.js lines 876-887): unlike `pastTenseWord`, the
final consonant is not doubled for stems ending in er/en/or/on/al. -/
def genEdForm (w : JStr) : JStr :=
  if endsWithCI "e".data w then w ++ "d".data
  else if endsConsY w then w.dropLast ++ "ied".data
  else if endsWithCVC w &&
      !(endsWithCI "er".data w || endsWithCI "en".data w || endsWithCI "or".data w ||
        endsWithCI "on".data w || endsWithCI "al".data w) then
    w ++ [w.getLastD 'x'] ++ "ed".data
  else w ++ "ed".data

/-- `ingForm` (src/index.js lines 888-895). -/
def genIngForm (w : JStr) : JStr :=
  if endsWithCI "ie".data w then (w.dropLast).dropLast ++ "ying".data
  else if endsWithCI "ee".data w then w ++ "ing".data
  else if endsWithCI "e".data w then w.dropLast ++ "ing".data
  else if endsWithCVC w &&
      !(endsWithCI "er".data w || endsWithCI "en".data w || endsWithCI "or".data w ||
        endsWithCI "on".data w || endsWithCI "al".data w) then
    w ++ [w.getLastD 'x'] ++ "ing".data
  else w ++ "ing".data

/-- The external `en-inflectors` library, visible to `generateTwlByBook`
only through these four methods; modelled as an oracle. -/
structure Inflect where
  toPlural : JStr → JStr
  toSingular : JStr → JStr
  toPast : JStr → JStr
  toGerund : JStr → JStr

/-- `allowNoVariant` (src/index.js lines 896-914). -/
def allowNoVariant (inf : Inflect) (base mtch : JStr) : Bool :=
  if base = [] ∨ mtch = [] then true
  else if lowStr base = lowStr mtch then true
  else
    let parts := splitWs (jsTrim base)
    let hd := if 1 < parts.length then joinSpace parts.dropLast ++ [' '] else []
    let last := parts.getLastD []
    let allowed := ([hd ++ genPluralizeWord last, hd ++ inf.toPlural last,
      hd ++ inf.toSingular last, hd ++ genEdForm last, hd ++ inf.toPast last,
      hd ++ genIngForm last, hd ++ inf.toGerund last]).map lowStr
    allowed.contains (lowStr mtch)

/-- The Tags assignment of the English-first emission (src/index.js
lines 934-936): `keyterm` for a `kt/` article, `name` for a `names/`
article, blank otherwise. -/
def tagOf (primaryArticle : String) : String :=
  if "kt/".data.isPrefixOf primaryArticle.data then "keyterm"
  else if "names/".data.isPrefixOf primaryArticle.data then "name"
  else ""

/-- Decimal rendering of a positive number, high digit first; fuelled
so that it evaluates by `decide` (fuel `n` suffices since `n / 10`
strictly decreases). -/
def natDecAux : Nat → Nat → JStr
  | 0, _ => []
  | fuel + 1, n => if n = 0 then [] else natDecAux fuel (n / 10) ++ [Nat.digitChar (n % 10)]

/-- JS number-to-string for the `${c}:${v}` reference template. -/
def natDec (n : Nat) : JStr :=
  if n = 0 then ['0'] else natDecAux n n

/-- The `Reference` column value for chapter `c`, verse `v`. -/
def refStr (c v : Nat) : JStr := natDec c ++ ':' :: natDec v

/-- One data row of the English-first matched TSV, field by field
(src/index.js lines 945-955). -/
structure OutRow where
  ref : JStr
  id : String
  tag : String
  origWords : JStr
  occ : Nat
  twLink : String
  variantOf : JStr
  disamb : String
deriving DecidableEq, Repr

/-- `occMap.get(glq) || 0` over the insertion-ordered `Map`. -/
def occGet (m : List (JStr × Nat)) (k : JStr) : Nat :=
  ((m.find? fun e => e.1 == k).map Prod.snd).getD 0

/-- `occMap.set(glq, occ)`: update in place (Map keys are unique), else
append. -/
def occSet : List (JStr × Nat) → JStr → Nat → List (JStr × Nat)
  | [], k, v => [(k, v)]
  | e :: t, k, v => if e.1 == k then (k, v) :: t else e :: occSet t k v

/-- `Array.prototype.join(', ')`. -/
def joinCommaSpace : List String → String
  | [] => ""
  | [a] => a
  | a :: b :: rest => a ++ ", " ++ joinCommaSpace (b :: rest)

/-- The per-verse row loop (src/index.js lines 925-956).  `ids k` is
the value returned by the `k`-th call of `genId`; the generator draws
random ids and retries until unused, so each call returns some fresh
string, and which string it is does not affect the other columns. -/
def verseRowsAux (ids : Nat → String) (inf : Inflect) (refS : JStr) :
    List DriverMatch → List (JStr × Nat) → Nat → List OutRow
  | [], _, _ => []
  | m :: rest, occMap, k =>
      let glq := m.matchedText
      let occ := occGet occMap glq + 1
      let occMap2 := occSet occMap glq occ
      let primary := m.articles.headD ""
      let tag := tagOf primary
      let twLink := if primary ≠ "" then "rc://*/tw/dict/bible/" ++ primary else ""
      let variantOf := if allowNoVariant inf m.term glq then [] else m.term
      let disamb := if 1 < m.articles.length then "(" ++ joinCommaSpace m.articles ++ ")"
        else ""
      ⟨refS, ids k, tag, glq, occ, twLink, variantOf, disamb⟩ ::
        verseRowsAux ids inf refS rest occMap2 (k + 1)

/-- `versesByChapter[c] || {}`. -/
def chGet (m : VersesObj) (c : Nat) : List (Nat × JStr) :=
  ((m.find? fun e => e.1 == c).map Prod.snd).getD []

/-- `verses[v] || ''`. -/
def vGet (vs : List (Nat × JStr)) (v : Nat) : JStr :=
  ((vs.find? fun e => e.1 == v).map Prod.snd).getD []

/-- `Object.keys(..).map(n => parseInt(n, 10)).sort((a, b) => a - b)`. -/
def sortedKeysNat (l : List Nat) : List Nat := l.insertionSort (· ≤ ·)

/-- The inner `for (const v of verseNums)` loop, returning the rows and
the next `genId` call index. -/
def verseLoop (ids : Nat → String) (inf : Inflect) (trie : Trie) (c : Nat)
    (verses : List (Nat × JStr)) : List Nat → Nat → List OutRow × Nat
  | [], k => ([], k)
  | v :: vs, k =>
      let text := vGet verses v
      let rows := verseRowsAux ids inf (refStr c v) (scanVerseMatches text trie) [] k
      let next := verseLoop ids inf trie c verses vs (k + rows.length)
      (rows ++ next.1, next.2)

/-- The outer `for (const c of chapterNums)` loop. -/
def chapterLoop (ids : Nat → String) (inf : Inflect) (trie : Trie) (vb : VersesObj) :
    List Nat → Nat → List OutRow
  | [], _ => []
  | c :: cs, k =>
      let verses := chGet vb c
      let blk := verseLoop ids inf trie c verses (sortedKeysNat (verses.map Prod.fst)) k
      blk.1 ++ chapterLoop ids inf trie vb cs blk.2

/-- The verse walk of `generateTwlByBook` (src/index.js lines 917-957):
chapters and verses in ascending numeric order, one data row per
scanner match. -/
def generateTwlRows (ids : Nat → String) (inf : Inflect) (trie : Trie)
    (vb : VersesObj) : List OutRow :=
  chapterLoop ids inf trie vb (sortedKeysNat (vb.map Prod.fst)) 0

/-- The C2 property of a row list: for every `(Reference, OrigWords)`
pair, the `Occurrence` values of the rows carrying that pair are
`1, 2, ..., k` in emission order. -/
def occContiguous (rows : List OutRow) : Prop :=
  ∀ refS ow : JStr,
    ((rows.filter fun r => r.ref == refS && r.origWords == ow).map OutRow.occ) =
      List.range' 1 ((rows.filter fun r => r.ref == refS && r.origWords == ow).length)

def c2ids : Nat → String := fun _ => "aaaa"

def c2inf : Inflect := ⟨fun w => w, fun w => w, fun w => w, fun w => w⟩

def c2root : Trie :=
  Trie.insert (.node [] []) "grace".data "grace".data ["kt/grace"] true

def c2vb : VersesObj := [(1, [(1, "grace upon grace".data)])]

/-! ## The legacy Strong's-first pipeline (historical revision, the
`buildInitialTsv`/`chooseArticleByGlQuote` driver)

The legacy `chooseArticleByGlQuote` shares `prioritizeArticles`, the
stage-1/2 tests and the variant suppression with the current selector,
but its stage 3 is a plain case-sensitive substring test, its stage 4
tests lowercased stripped forms (minimum length 3) by plain substring,
and its disambiguation lists the per-article matches themselves. -/

/-- Legacy stage 3: `textOrig.includes(termOrig)` for non-empty terms. -/
def sfStage3Hit (txt : JStr) (terms : List TermObj) : Option JStr :=
  terms.findSome? fun tobj =>
    if decide (tobj.orig ≠ []) && includesSub txt tobj.orig then some tobj.orig else none

/-- Legacy `addIf`: trimmed lowercased forms of length at least 3. -/
def sfAddIf (forms : List JStr) (s : JStr) : List JStr :=
  let v := lowStr (jsTrim s)
  if v ≠ [] ∧ 3 ≤ v.length then setAdd forms v else forms

/-- Legacy `addFromLast`. -/
def sfAddFromLast (forms : List JStr) (pre w : JStr) : List JStr :=
  let lw := lowStr w
  if lw = [] then forms
  else
    let r := sfAddIf forms (pre ++ lw)
    let r := if endsWithCI "y".data lw then sfAddIf r (pre ++ lw.dropLast) else r
    let r := if endsWithCI "e".data lw then sfAddIf r (pre ++ lw.dropLast) else r
    let r := if endsWithCI "ing".data lw then
        sfAddIf r (pre ++ ((lw.dropLast).dropLast).dropLast) else r
    let r := if endsWithCI "ed".data lw then sfAddIf r (pre ++ (lw.dropLast).dropLast) else r
    let r := if endsWithCI "es".data lw then sfAddIf r (pre ++ (lw.dropLast).dropLast) else r
    let r := if endsWithCI "s".data lw && !endsWithCI "ss".data lw then
        sfAddIf r (pre ++ lw.dropLast) else r
    r

/-- Legacy `addYEOnlyFromLast`. -/
def sfAddYEOnlyFromLast (forms : List JStr) (pre w : JStr) : List JStr :=
  let lw := lowStr w
  if lw = [] then forms
  else
    let r := sfAddIf forms (pre ++ lw)
    let r := if endsWithCI "y".data lw then sfAddIf r (pre ++ lw.dropLast) else r
    let r := if endsWithCI "e".data lw then sfAddIf r (pre ++ lw.dropLast) else r
    r

/-- Legacy `strippedForms`. -/
def sfStrippedForms (base : JStr) : List JStr :=
  let hl := splitHeadLast base
  let pre := if hl.1 ≠ [] then hl.1 ++ [' '] else []
  let r := sfAddFromLast [] pre hl.2
  let r := (conjugationsForTerm base).foldl
    (fun acc x =>
      let hl2 := splitHeadLast x
      if hl2.1 == hl.1 then sfAddYEOnlyFromLast acc pre hl2.2 else acc) r
  let r := (irregularFormsForTerm base).foldl
    (fun acc x =>
      let hl2 := splitHeadLast x
      if hl2.1 == hl.1 then sfAddYEOnlyFromLast acc pre hl2.2 else acc) r
  r

/-- Legacy stage 4: `textLower.includes(f)` over the stripped forms. -/
def sfStage4Hit (txt : JStr) (terms : List TermObj) : Option JStr :=
  terms.findSome? fun tobj =>
    if (sfStrippedForms tobj.orig).any
        (fun f => decide (f ≠ []) && includesSub (lowStr txt) f) then
      some tobj.orig
    else none

/-- The legacy staged matcher for one article. -/
def sfArticleStage (txt : JStr) (terms : List TermObj) : StageOutcome :=
  match stage1Hit txt terms with
  | some h => ⟨1, h, false⟩
  | none =>
    match stage2Hit txt terms with
    | some h => ⟨2, h, false⟩
    | none =>
      match sfStage3Hit txt terms with
      | some h => ⟨3, h, false⟩
      | none =>
        match sfStage4Hit txt terms with
        | some h => ⟨4, h, false⟩
        | none => ⟨0, [], false⟩

/-- The legacy `chooseArticleByGlQuote`. -/
def sfChooseArticle (glq : JStr) (strongId : String)
    (strongPivot : List (String × List String))
    (termMap : List (String × List TermObj)) : Option ChooseResult :=
  let prioritized := prioritizeArticles glq strongId strongPivot
  if prioritized = [] then none
  else
    let perArticleMatches := prioritized.filterMap fun art =>
      let r := sfArticleStage glq (termMapGet termMap art)
      if 0 < r.stage then some (⟨art, r.stage, r.termHit, r.truncated⟩ : PAMatch) else none
    if perArticleMatches = [] then none
    else
      let bestStage := stageMin (perArticleMatches.map (·.stage))
      let bestMatches := perArticleMatches.filter (fun m => m.stage == bestStage)
      match bestMatches.insertionSort (idxLe prioritized) with
      | [] => none
      | chosenMatch :: _ =>
          let matchesList := perArticleMatches.map (·.art)
          let disamb :=
            if 1 < matchesList.length then
              "(" ++ String.intercalate ", " matchesList ++ ")"
            else ""
          let variantTerm := suppressVariant glq chosenMatch termMap
          some ⟨chosenMatch.art, disamb, variantTerm⟩

/-- The `Tags` value written by the legacy `buildInitialTsv` (the short
group names `kt`/`names`, not `keyterm`/`name`). -/
def sfInitialTag (art : String) : String :=
  if "kt/".data.isPrefixOf art.data then "kt"
  else if "names/".data.isPrefixOf art.data then "names"
  else ""

/-- A prepared row of the legacy pipeline (nine named columns). -/
structure SfRow where
  ref : String
  id : String
  tags : String
  origWords : String
  occurrence : String
  twLink : String
  strongs : String
  glQuote : String
  glOccurrence : String
deriving DecidableEq, Repr

/-- Destination of one processed legacy row. -/
inductive SfOut where
  | noMatch (row : SfRow) (disambTried : String)
  | matched (row : SfRow) (variantOf : JStr) (disamb : String)
deriving DecidableEq, Repr

/-- One iteration of the final row loop of the legacy driver: a null
selector result pushes the prepared row unchanged (plus the
tried-articles disambiguation) onto the no-match TSV; a match rewrites
`TWLink` and `Tags` and appends `Variant of`/`Disambiguation`. -/
def sfProcessRow (strongPivot : List (String × List String))
    (termMap : List (String × List TermObj)) (cols : SfRow) : SfOut :=
  let strongId := cols.strongs
  let glq := cols.glQuote.data
  match sfChooseArticle glq strongId strongPivot termMap with
  | none =>
      let tried := prioritizeArticles glq strongId strongPivot
      let disambTried :=
        if tried ≠ [] then "(" ++ String.intercalate ", " tried ++ ")" else ""
      .noMatch cols disambTried
  | some result =>
      let art := result.article
      .matched { cols with twLink := "rc://*/tw/dict/bible/" ++ art, tags := tagOf art }
        result.variantTerm result.disamb

def c8pivot : List (String × List String) := [("H430", ["kt/god"])]

def c8termMap : List (String × List TermObj) := [("kt/god", [])]

/-- A prepared legacy row for Strong's H430 whose initial Tags value is
the `buildInitialTsv` short tag for its `kt/god` TWLink article. -/
def c8cols : SfRow :=
  ⟨"1:1", "h430", "kt", "God", "1", "rc://*/tw/dict/bible/kt/god", "H430", "God", "1"⟩

def c8mterm : List (String × List TermObj) := [("kt/god", [⟨"God".data, "god".data⟩])]

def c8mrow : SfRow :=
  ⟨"1:1", "h430", "keyterm", "God", "1", "rc://*/tw/dict/bible/kt/god", "H430", "God", "1"⟩

def c8ids : Nat → String := fun _ => "zzzz"

def c8inf : Inflect := ⟨fun w => w, fun w => w, fun w => w, fun w => w⟩

def c8m0 : DriverMatch := ⟨"grace".data, ["kt/grace"], none, "grace".data, [], 0⟩

def c8r0 : OutRow :=
  ⟨"1:1".data, "zzzz", "keyterm", "grace".data, 1, "rc://*/tw/dict/bible/kt/grace", [], ""⟩

/-! # Theorems -/

theorem toNat_ofNat_of_valid (n : Nat) (h : n.isValidChar) :
    (Char.ofNat n).toNat = n := by
  unfold Char.ofNat
  rw [dif_pos h]
  rfl

theorem lowChar_toNat_of_upper (c : Char) (h : 65 ≤ c.toNat ∧ c.toNat ≤ 90) :
    (lowChar c).toNat = c.toNat + 32 := by
  have hv : Nat.isValidChar (c.toNat + 32) := Or.inl (by omega)
  show (Char.toLower c).toNat = c.toNat + 32
  unfold Char.toLower
  rw [if_pos (by exact ⟨h.1, h.2⟩)]
  exact toNat_ofNat_of_valid _ hv

theorem lowChar_eq_of_not_upper (c : Char) (h : ¬(65 ≤ c.toNat ∧ c.toNat ≤ 90)) :
    lowChar c = c := by
  show Char.toLower c = c
  unfold Char.toLower
  rw [if_neg (by exact fun hc => h ⟨hc.1, hc.2⟩)]

theorem lowChar_idem (c : Char) : lowChar (lowChar c) = lowChar c := by
  by_cases h : 65 ≤ c.toNat ∧ c.toNat ≤ 90
  · have h1 := lowChar_toNat_of_upper c h
    exact lowChar_eq_of_not_upper _ (by omega)
  · rw [lowChar_eq_of_not_upper c h]
    exact lowChar_eq_of_not_upper c h

theorem lowStr_idem (s : List Char) : lowStr (lowStr s) = lowStr s := by
  simp only [lowStr, List.map_map]
  exact List.map_congr_left fun c _ => lowChar_idem c

theorem jsWordChar_lowChar (c : Char) : jsWordChar (lowChar c) = jsWordChar c := by
  by_cases h : 65 ≤ c.toNat ∧ c.toNat ≤ 90
  · have h1 := lowChar_toNat_of_upper c h
    rw [Bool.eq_iff_iff]
    simp only [jsWordChar, h1, Bool.or_eq_true, decide_eq_true_eq, Bool.and_eq_true, beq_iff_eq]
    omega
  · rw [lowChar_eq_of_not_upper c h]

theorem jsSpaceChar_lowChar (c : Char) : jsSpaceChar (lowChar c) = jsSpaceChar c := by
  by_cases h : 65 ≤ c.toNat ∧ c.toNat ≤ 90
  · have h1 := lowChar_toNat_of_upper c h
    rw [Bool.eq_iff_iff]
    simp only [jsSpaceChar, h1, Bool.or_eq_true, decide_eq_true_eq, Bool.and_eq_true, beq_iff_eq]
    omega
  · rw [lowChar_eq_of_not_upper c h]

theorem jsPunctChar_lowChar (c : Char) : jsPunctChar (lowChar c) = jsPunctChar c := by
  by_cases h : 65 ≤ c.toNat ∧ c.toNat ≤ 90
  · have h1 := lowChar_toNat_of_upper c h
    rw [Bool.eq_iff_iff]
    simp only [jsPunctChar, h1, Bool.or_eq_true, decide_eq_true_eq, Bool.and_eq_true, beq_iff_eq]
    omega
  · rw [lowChar_eq_of_not_upper c h]

theorem jsSpacePunct_lowChar (c : Char) : jsSpacePunct (lowChar c) = jsSpacePunct c := by
  simp only [jsSpacePunct, jsSpaceChar_lowChar, jsPunctChar_lowChar]

theorem jsApos_lowChar (c : Char) : jsApos (lowChar c) = jsApos c := by
  by_cases h : 65 ≤ c.toNat ∧ c.toNat ≤ 90
  · have h1 := lowChar_toNat_of_upper c h
    rw [Bool.eq_iff_iff]
    simp only [jsApos, h1, beq_iff_eq]
    omega
  · rw [lowChar_eq_of_not_upper c h]

/-! ### Supporting lemmas about the verse map -/

theorem find?_map_keyPreserving {β : Type} (m : List (Nat × β)) (f : Nat × β → Nat × β)
    (hf : ∀ e, (f e).1 = e.1) (k : Nat) :
    (m.map f).find? (fun e => e.1 == k) = (m.find? (fun e => e.1 == k)).map f := by
  induction m with
  | nil => rfl
  | cons e rest ih =>
    simp only [List.map_cons, List.find?]
    rw [hf e]
    by_cases h : e.1 == k
    · rw [h]; rfl
    · rw [Bool.not_eq_true] at h
      rw [h]
      exact ih

theorem findVerse_ensureChapter {m : VersesObj} {c a b : Nat} {s : List Char}
    (h : findVerse (ensureChapter m c) a b = some s) : findVerse m a b = some s := by
  unfold ensureChapter at h
  cases hf : m.find? (fun e => e.1 == c) with
  | some e => rw [hf] at h; exact h
  | none =>
    rw [hf] at h
    unfold findVerse at h ⊢
    rw [List.find?_append] at h
    cases hg : m.find? (fun e => e.1 == a) with
    | some e => rw [hg] at h; simpa [hg] using h
    | none =>
      rw [hg] at h
      simp only [Option.none_or, List.find?] at h
      by_cases hab : c = a
      · rw [show (c == a) = true from by simpa using hab] at h
        exact absurd h (by simp [List.find?])
      · rw [show (c == a) = false from by simpa using hab] at h
        exact absurd h (by simp)

theorem findVerse_setVerse {m : VersesObj} {c v a b : Nat} {t s : List Char}
    (h : findVerse (setVerse m c v t) a b = some s) :
    (a = c ∧ b = v ∧ s = t) ∨ findVerse m a b = some s := by
  unfold findVerse setVerse at h
  unfold findVerse
  rw [find?_map_keyPreserving _ _ (fun e => by split <;> rfl)] at h
  cases hg : m.find? (fun e => e.1 == a) with
  | none => rw [hg] at h; exact absurd h (by simp)
  | some e =>
    rw [hg] at h
    simp only [Option.map_some'] at h
    by_cases hac : e.1 == c
    · rw [if_pos hac] at h
      simp only at h
      by_cases hbv : b = v
      · subst hbv
        left
        have hac2 : a = c := by
          have h1 : e.1 = a := by simpa using List.find?_some hg
          have h2 : e.1 = c := by simpa using hac
          omega
        refine ⟨hac2, rfl, ?_⟩
        by_cases hsome : (e.2.find? fun p => p.1 == b).isSome
        · rw [if_pos hsome] at h
          rw [find?_map_keyPreserving _ _ (fun p => by split <;> rfl)] at h
          cases hp : e.2.find? (fun p => p.1 == b) with
          | none => rw [hp] at hsome; simp at hsome
          | some p =>
            rw [hp] at h
            have hpk : p.1 = b := by simpa using List.find?_some hp
            simp only [Option.map_some'] at h
            rw [if_pos (by simpa using hpk)] at h
            simpa using h.symm
        · rw [if_neg hsome] at h
          rw [List.find?_append] at h
          cases hp : e.2.find? (fun p => p.1 == b) with
          | some p => rw [hp] at hsome; simp at hsome
          | none =>
            rw [hp] at h
            simp only [Option.none_or, List.find?] at h
            simpa using h.symm
      · right
        by_cases hsome : (e.2.find? fun q => q.1 == v).isSome
        · rw [if_pos hsome] at h
          rw [find?_map_keyPreserving _ _ (fun p => by split <;> rfl)] at h
          cases hp : e.2.find? (fun p => p.1 == b) with
          | none => rw [hp] at h; exact absurd h (by simp)
          | some p =>
            rw [hp] at h
            have hpk : p.1 = b := by simpa using List.find?_some hp
            simp only [Option.map_some'] at h
            rw [if_neg (by simp [hpk, hbv])] at h
            simp only [hp, Option.map_some']
            simpa using h
        · rw [if_neg hsome] at h
          rw [List.find?_append] at h
          cases hp : e.2.find? (fun p => p.1 == b) with
          | some p =>
            rw [hp] at h
            rw [show (some p).or (List.find? (fun e => e.1 == b) [(v, t)]) = some p from rfl] at h
            simp only [hp]
            simpa using h
          | none =>
            rw [hp] at h
            simp only [Option.none_or, List.find?] at h
            have hvb : (v == b) = false := by
              simp only [beq_eq_false_iff_ne, ne_eq]
              exact fun hh => hbv hh.symm
            rw [hvb] at h
            exact absurd h (by simp)
    · rw [if_neg hac] at h
      right
      simpa using h

theorem findVerse_setVerse_self {m : VersesObj} {c v : Nat} {t : List Char}
    (hc : (m.find? fun e => e.1 == c).isSome) :
    findVerse (setVerse m c v t) c v = some t := by
  unfold findVerse setVerse
  rw [find?_map_keyPreserving _ _ (fun e => by split <;> rfl)]
  cases hg : m.find? (fun e => e.1 == c) with
  | none => rw [hg] at hc; simp at hc
  | some e =>
    have hkey : e.1 = c := by simpa using List.find?_some hg
    simp only [Option.map_some']
    rw [if_pos (by simpa using hkey)]
    by_cases hsome : (e.2.find? fun p => p.1 == v).isSome
    · rw [if_pos hsome]
      simp only
      rw [find?_map_keyPreserving _ _ (fun p => by split <;> rfl)]
      cases hp : e.2.find? (fun p => p.1 == v) with
      | none => rw [hp] at hsome; simp at hsome
      | some p =>
        have hpk : p.1 = v := by simpa using List.find?_some hp
        simp [hpk]
    · rw [if_neg hsome]
      simp only
      rw [List.find?_append]
      cases hp : e.2.find? (fun p => p.1 == v) with
      | some p => rw [hp] at hsome; simp at hsome
      | none => simp [List.find?]

theorem ensureChapter_mem (m : VersesObj) (c : Nat) :
    ((ensureChapter m c).find? fun e => e.1 == c).isSome := by
  unfold ensureChapter
  cases hf : m.find? (fun e => e.1 == c) with
  | some e => simp [hf]
  | none =>
    rw [List.find?_append, hf]
    simp [List.find?]

theorem findVerse_ensureChapter_of {m : VersesObj} {c a b : Nat} {s : List Char}
    (h : findVerse m a b = some s) : findVerse (ensureChapter m c) a b = some s := by
  unfold ensureChapter
  cases hf : m.find? (fun e => e.1 == c) with
  | some e => exact h
  | none =>
    unfold findVerse at h ⊢
    rw [List.find?_append]
    cases hm : m.find? (fun e => e.1 == a) with
    | some e2 => rw [hm] at h; simpa [hm] using h
    | none => rw [hm] at h; simp at h

theorem findVerse_setVerse_pres {m : VersesObj} {c v a b : Nat} {t s : List Char}
    (h : findVerse m a b = some s) :
    ∃ s', findVerse (setVerse m c v t) a b = some s' := by
  unfold findVerse at h
  unfold findVerse setVerse
  rw [find?_map_keyPreserving _ _ (fun e => by split <;> rfl)]
  cases hg : m.find? (fun e => e.1 == a) with
  | none => rw [hg] at h; simp at h
  | some e =>
    rw [hg] at h
    simp only [Option.map_some'] at h ⊢
    cases hp : e.2.find? (fun p => p.1 == b) with
    | none => rw [hp] at h; simp at h
    | some p =>
      rw [hp] at h
      by_cases hac : e.1 == c
      · rw [if_pos hac]
        by_cases hsome : (e.2.find? fun q => q.1 == v).isSome
        · rw [if_pos hsome]
          simp only
          rw [find?_map_keyPreserving _ _ (fun q => by split <;> rfl), hp]
          exact ⟨_, rfl⟩
        · rw [if_neg hsome]
          simp only
          rw [List.find?_append, hp]
          exact ⟨_, rfl⟩
      · rw [if_neg hac, hp]
        exact ⟨_, rfl⟩

/-- Presence of a verse is monotone along processing: no step of
`cvStep` ever removes a stored verse. -/
theorem cvStep_mono {st : Nat × VersesObj} {p : CvPart} {a b : Nat} {s : List Char}
    (h : findVerse st.2 a b = some s) :
    ∃ s', findVerse (cvStep st p).2 a b = some s' := by
  unfold cvStep
  cases st with
  | mk cur m =>
    by_cases hc : p.isChapter
    · simpa [hc] using ⟨s, @findVerse_ensureChapter_of _ p.num _ _ _ h⟩
    · simp only [hc, Bool.false_eq_true, if_false]
      by_cases hcl : collapseWs p.text ≠ []
      · rw [if_pos hcl]
        exact findVerse_setVerse_pres (@findVerse_ensureChapter_of _ cur _ _ _ h)
      · rw [if_neg hcl]
        exact ⟨s, @findVerse_ensureChapter_of _ cur _ _ _ h⟩

theorem foldl_cvStep_mono {parts : List CvPart} {st : Nat × VersesObj} {a b : Nat}
    {s : List Char} (h : findVerse st.2 a b = some s) :
    ∃ s', findVerse (parts.foldl cvStep st).2 a b = some s' := by
  induction parts generalizing st s with
  | nil => exact ⟨s, h⟩
  | cons p rest ih =>
    obtain ⟨s', hs'⟩ := @cvStep_mono _ p _ _ _ h
    exact ih hs'

/-- While only verse markers have been processed, the current chapter
stays at its initial value. -/
theorem foldl_cvStep_chapter {parts : List CvPart} {st : Nat × VersesObj}
    (h : ∀ q ∈ parts, q.isChapter = false) :
    (parts.foldl cvStep st).1 = st.1 := by
  induction parts generalizing st with
  | nil => rfl
  | cons p rest ih =>
    have hp : p.isChapter = false := h p (List.mem_cons_self p rest)
    have hrest : ∀ q ∈ rest, q.isChapter = false := fun q hq => h q (List.mem_cons_of_mem _ hq)
    rw [List.foldl_cons, ih hrest]
    unfold cvStep
    cases st with
    | mk cur m =>
      simp only [hp, Bool.false_eq_true, if_false]
      by_cases hcl : collapseWs p.text ≠ []
      · rw [if_pos hcl]
      · rw [if_neg hcl]

/-- Every verse text ever stored is non-empty, for any starting state
with only non-empty stored texts. -/
theorem foldl_cvStep_nonempty {parts : List CvPart} {st : Nat × VersesObj}
    (hst : ∀ a b s, findVerse st.2 a b = some s → s ≠ []) :
    ∀ a b s, findVerse ((parts.foldl cvStep st).2) a b = some s → s ≠ [] := by
  induction parts generalizing st with
  | nil => exact hst
  | cons p rest ih =>
    rw [List.foldl_cons]
    apply ih
    intro a b s hs
    unfold cvStep at hs
    cases st with
    | mk cur m =>
      by_cases hc : p.isChapter
      · simp only [hc, if_pos] at hs
        exact hst a b s (findVerse_ensureChapter hs)
      · simp only [hc, Bool.false_eq_true, if_false] at hs
        by_cases hcl : collapseWs p.text ≠ []
        · rw [if_pos hcl] at hs
          simp only at hs
          rcases findVerse_setVerse hs with ⟨_, _, rfl⟩ | hold
          · exact hcl
          · exact hst a b s (findVerse_ensureChapter hold)
        · rw [if_neg hcl] at hs
          exact hst a b s (findVerse_ensureChapter hs)

/-- C10.  `parseUsfmToVerses` starts the current chapter at 1, so a
`\v` marker that precedes every `\c` marker is stored under chapter 1
(provided its collapsed body is non-empty), and no verse whose body
collapses to the empty text is ever stored: every stored verse text is
non-empty. -/
theorem c10_parseUsfm_chapter1_and_nonempty (usfm : List Char) :
    (∀ pre p rest, (splitCv usfm).2 = pre ++ p :: rest →
      (∀ q ∈ pre, q.isChapter = false) → p.isChapter = false →
      collapseWs p.text ≠ [] →
      ∃ s, findVerse (parseUsfmToVerses usfm) 1 p.num = some s) ∧
    (∀ c v s, findVerse (parseUsfmToVerses usfm) c v = some s → s ≠ []) := by
  constructor
  · intro pre p rest hsplit hpre hp hcl
    unfold parseUsfmToVerses
    rw [hsplit, List.foldl_append, List.foldl_cons]
    have hch : (pre.foldl cvStep (1, [])).1 = 1 := foldl_cvStep_chapter hpre
    rcases hst : pre.foldl cvStep (1, ([] : VersesObj)) with ⟨cur, m1⟩
    rw [hst] at hch
    simp only at hch
    subst hch
    have hstep : cvStep (1, m1) p =
        (1, setVerse (ensureChapter m1 1) 1 p.num (collapseWs p.text)) := by
      unfold cvStep
      simp only [hp, Bool.false_eq_true, if_false]
      rw [if_pos hcl]
    rw [hstep]
    exact foldl_cvStep_mono (findVerse_setVerse_self (ensureChapter_mem m1 1))
  · intro c v s hs
    unfold parseUsfmToVerses at hs
    exact foldl_cvStep_nonempty (by intro a b s2 h2; simp [findVerse] at h2) c v s hs

/-- Witness for C10: the input `\v 1 In the beginning` has its verse
marker before any chapter marker, and the verse is stored under chapter
1. -/
theorem c10_witness :
    ((splitCv "\\v 1 In the beginning".data).2 =
      [] ++ (⟨false, 1, " In the beginning".data⟩ : CvPart) :: []) ∧
    (∃ s, findVerse (parseUsfmToVerses "\\v 1 In the beginning".data) 1 1 = some s) := by
  refine ⟨by decide, ?_⟩
  exact (c10_parseUsfm_chapter1_and_nonempty _).1 []
    ⟨false, 1, " In the beginning".data⟩ [] (by decide)
    (by intro q hq; simp at hq) (by decide) (by decide)

/-- C1 (code bug).  The ID generator of `src/utils/twl-matcher.js`
returns `'abcd' || id`; the string literal is truthy, so the generator
ignores every random draw and returns the constant `"abcd"`:  as soon
as an output has two rows they share an ID, contradicting ID uniqueness
across the output. -/
theorem c1_generateId_constant (rnd : Nat → Nat) : generateId rnd = "abcd" := by
  rfl

/-- C9.  On GL→OL converter failure the TSV (hence `OrigWords` and
`Occurrence`) is left unchanged; on add-GL-quote failure every 8-column
data row is rebuilt with `GLQuote`/`GLOccurrence` copied from
`OrigWords`/`Occurrence` and all other columns (Reference, ID, Tags,
OrigWords, Occurrence, TWLink, Variant of, Disambiguation) preserved. -/
theorem c9_external_failure_fallbacks (tsv : String) (e : Unit)
    (c0 c1 c2 c3 c4 c5 c6 c7 : String) :
    glOlConvertStep tsv (Except.error e) = tsv ∧
    addGlFallbackRow [c0, c1, c2, c3, c4, c5, c6, c7] =
      [c0, c1, c2, c3, c4, c5, c3, c4, c6, c7] :=
  ⟨rfl, rfl⟩

/-! ### Claims C3 and C4: the staged matcher and the tie-break -/

theorem occursAt_lt_length {t s : JStr} {i : Nat} (ht : t ≠ [])
    (h : occursAt t s i = true) : i < s.length := by
  unfold occursAt at h
  by_contra hge
  push_neg at hge
  rw [List.drop_eq_nil_of_le hge] at h
  cases t with
  | nil => exact ht rfl
  | cons a as => simp [List.isPrefixOf] at h

theorem prefixBoundaryTest_iff {t s : JStr} (ht : t ≠ []) :
    prefixBoundaryTest t s = true ↔ PrefixBoundaryPos t s := by
  unfold prefixBoundaryTest PrefixBoundaryPos
  rw [List.any_eq_true]
  constructor
  · rintro ⟨i, _, hp⟩
    rw [Bool.and_eq_true] at hp
    obtain ⟨hocc, hcond⟩ := hp
    refine ⟨i, hocc, ?_⟩
    simp only [Bool.or_eq_true, beq_iff_eq, Bool.and_eq_true, decide_eq_true_eq] at hcond
    rcases hcond with (hi | hb) | hd
    · exact Or.inl hi
    · exact Or.inr (Or.inl hb)
    · refine Or.inr (Or.inr ⟨hd.1, ?_⟩)
      rcases hget : s.get? (i - 1) with _ | c
      · rw [hget] at hd
        exact absurd hd.2 (by simp)
      · rw [hget] at hd
        exact ⟨c, rfl, hd.2⟩
  · rintro ⟨i, hocc, hcond⟩
    have hilt : i < s.length := occursAt_lt_length ht hocc
    refine ⟨i, List.mem_range.mpr (by omega), ?_⟩
    rw [Bool.and_eq_true]
    refine ⟨hocc, ?_⟩
    simp only [Bool.or_eq_true, beq_iff_eq, Bool.and_eq_true, decide_eq_true_eq]
    rcases hcond with hi | hb | ⟨h1, c, hget, hdash⟩
    · exact Or.inl (Or.inl hi)
    · exact Or.inl (Or.inr hb)
    · exact Or.inr ⟨h1, by rw [hget]; exact hdash⟩

/-- C3.  When an article's terms fail stages 1 and 2, the staged
matcher records stage 3 exactly when some non-empty term of the article
occurs case-sensitively in the phrase at the start, at a word boundary,
or immediately after a dash — the pattern `(?:^|\b|[—–-])TERM` of
src/index.js lines 475-487. -/
theorem c3_stage3_iff (glq : JStr) (terms : List TermObj)
    (h1 : stage1Hit glq terms = none) (h2 : stage2Hit glq terms = none) :
    (articleStage glq terms).stage = 3 ↔
      ∃ tobj ∈ terms, tobj.orig ≠ [] ∧ PrefixBoundaryPos tobj.orig glq := by
  unfold articleStage
  rw [h1, h2]
  cases h3 : stage3Hit glq terms with
  | some hTerm =>
    simp only [true_iff]
    obtain ⟨tobj, hmem, hf⟩ := List.exists_of_findSome?_eq_some h3
    by_cases hcond : (decide (tobj.orig ≠ []) && prefixBoundaryTest tobj.orig glq) = true
    · rw [Bool.and_eq_true, decide_eq_true_eq] at hcond
      exact ⟨tobj, hmem, hcond.1, (prefixBoundaryTest_iff hcond.1).mp hcond.2⟩
    · rw [if_neg (by simpa using hcond)] at hf
      exact absurd hf (by simp)
  | none =>
    have hnone : ∀ tobj ∈ terms, tobj.orig ≠ [] → ¬PrefixBoundaryPos tobj.orig glq := by
      intro tobj hmem hne hpos
      have := (List.findSome?_eq_none_iff).mp h3 tobj hmem
      rw [if_pos (by
        rw [Bool.and_eq_true, decide_eq_true_eq]
        exact ⟨hne, (prefixBoundaryTest_iff hne).mpr hpos⟩)] at this
      exact absurd this (by simp)
    cases h4 : stage4Hit glq terms with
    | some hTerm =>
      simp only
      constructor
      · intro hc; omega
      · rintro ⟨tobj, hmem, hne, hpos⟩
        exact absurd hpos (hnone tobj hmem hne)
    | none =>
      simp only
      constructor
      · intro hc; omega
      · rintro ⟨tobj, hmem, hne, hpos⟩
        exact absurd hpos (hnone tobj hmem hne)

/-- Witness for C3: for the article term `reap` and the phrase
`the reapers`, stages 1 and 2 fail and stage 3 matches (`reap` at the
word boundary before `reapers`). -/
theorem c3_witness :
    stage1Hit "the reapers".data [⟨"reap".data, "reap".data⟩] = none ∧
    (articleStage "the reapers".data [⟨"reap".data, "reap".data⟩]).stage = 3 :=
  ⟨by decide,
   (c3_stage3_iff "the reapers".data [⟨"reap".data, "reap".data⟩]
      (by decide) (by decide)).mpr
    ⟨⟨"reap".data, "reap".data⟩, by decide, by decide,
     ⟨4, by decide, Or.inr (Or.inl (by decide))⟩⟩⟩

theorem foldl_min_le (l : List Nat) (a : Nat) :
    (∀ x ∈ l, l.foldl Nat.min a ≤ x) ∧ l.foldl Nat.min a ≤ a := by
  induction l generalizing a with
  | nil => simp
  | cons b rest ih =>
    simp only [List.foldl_cons]
    obtain ⟨h1, h2⟩ := ih (Nat.min a b)
    refine ⟨?_, Nat.le_trans h2 (Nat.min_le_left a b)⟩
    intro x hx
    rcases List.mem_cons.mp hx with rfl | hx
    · exact Nat.le_trans h2 (Nat.min_le_right a x)
    · exact h1 x hx

theorem stageMin_le {l : List Nat} {x : Nat} (hx : x ∈ l) : stageMin l ≤ x := by
  cases l with
  | nil => simp at hx
  | cons s rest =>
    unfold stageMin
    rcases List.mem_cons.mp hx with rfl | hx
    · exact (foldl_min_le rest x).2
    · exact (foldl_min_le rest s).1 x hx

/-- C4.  Whenever `chooseArticleByGlQuote` returns a result, the chosen
article is one of the staged matches over the prioritized candidate
list, its stage is minimal among all those matches, and among the
matches at that minimal stage its index in the prioritized list is
minimal (src/index.js lines 625-631). -/
theorem c4_choose_min_stage_earliest (glq : JStr) (strongId : String)
    (strongPivot : List (String × List String))
    (termMap : List (String × List TermObj)) (twMap : TwMap) (res : ChooseResult)
    (hres : chooseArticleByGlQuote glq strongId strongPivot termMap twMap = some res) :
    ∃ m ∈ findMatchingArticles glq (prioritizeArticles glq strongId strongPivot) termMap,
      res.article = m.art ∧
      (∀ m' ∈ findMatchingArticles glq (prioritizeArticles glq strongId strongPivot) termMap,
        m.stage ≤ m'.stage) ∧
      (∀ m' ∈ findMatchingArticles glq (prioritizeArticles glq strongId strongPivot) termMap,
        m'.stage = m.stage →
        (prioritizeArticles glq strongId strongPivot).indexOf m.art ≤
          (prioritizeArticles glq strongId strongPivot).indexOf m'.art) := by
  unfold chooseArticleByGlQuote at hres
  set prioritized := prioritizeArticles glq strongId strongPivot with hprio
  by_cases hp : prioritized = []
  · rw [if_pos hp] at hres
    exact absurd hres (by simp)
  rw [if_neg hp] at hres
  set pams := findMatchingArticles glq prioritized termMap with hmatches
  by_cases hm : pams = []
  · rw [if_pos hm] at hres
    exact absurd hres (by simp)
  rw [if_neg hm] at hres
  simp only [] at hres
  set bestStage := stageMin (pams.map (·.stage)) with hbs
  set bestMatches := pams.filter (fun m => m.stage == bestStage) with hbm
  rcases hsort : bestMatches.insertionSort (idxLe prioritized) with _ | ⟨chosen, tail⟩
  · rw [hsort] at hres
    exact absurd hres (by simp)
  rw [hsort] at hres
  simp only [Option.some.injEq] at hres
  have hresArt : res.article = chosen.art := by rw [← hres]
  have hchosenMemSorted : chosen ∈ bestMatches.insertionSort (idxLe prioritized) := by
    rw [hsort]; exact List.mem_cons_self _ _
  have hchosenBest : chosen ∈ bestMatches :=
    (List.perm_insertionSort (idxLe prioritized) bestMatches).mem_iff.mp hchosenMemSorted
  have hchosenMatches : chosen ∈ pams := (List.mem_filter.mp hchosenBest).1
  have hchosenStage : chosen.stage = bestStage := by
    have := (List.mem_filter.mp hchosenBest).2
    simpa using this
  have hsorted := List.sorted_insertionSort (idxLe prioritized) bestMatches
  rw [hsort] at hsorted
  have hhead := (List.sorted_cons.mp hsorted).1
  refine ⟨chosen, hchosenMatches, hresArt, ?_, ?_⟩
  · intro m2 hm2
    rw [hchosenStage, hbs]
    exact stageMin_le (List.mem_map_of_mem (·.stage) hm2)
  · intro m2 hm2 hstage2
    have hm2best : m2 ∈ bestMatches := by
      rw [hbm]
      exact List.mem_filter.mpr ⟨hm2, by simp [hstage2, ← hchosenStage]⟩
    have hm2sorted : m2 ∈ chosen :: tail := by
      rw [← hsort]
      exact (List.perm_insertionSort (idxLe prioritized) bestMatches).mem_iff.mpr hm2best
    rcases List.mem_cons.mp hm2sorted with rfl | htail
    · exact Nat.le_refl _
    · exact hhead m2 htail

/-- Witness for C4: for Strong `H430`, candidates `kt/god` (stage 1 at
`God`) and `kt/falsegod` (stage 2), the selector picks `kt/god`. -/
theorem c4_witness :
    ∃ m ∈ findMatchingArticles "the God of hosts".data
        (prioritizeArticles "the God of hosts".data "H430"
          [("H430", ["kt/god", "kt/falsegod"])])
        [("kt/god", [⟨"God".data, "god".data⟩]),
         ("kt/falsegod", [⟨"god".data, "god".data⟩])],
      (ChooseResult.mk "kt/god" "(kt/god, kt/falsegod)" []).article = m.art ∧
      (∀ m' ∈ findMatchingArticles "the God of hosts".data
          (prioritizeArticles "the God of hosts".data "H430"
            [("H430", ["kt/god", "kt/falsegod"])])
          [("kt/god", [⟨"God".data, "god".data⟩]),
           ("kt/falsegod", [⟨"god".data, "god".data⟩])],
        m.stage ≤ m'.stage) ∧
      (∀ m' ∈ findMatchingArticles "the God of hosts".data
          (prioritizeArticles "the God of hosts".data "H430"
            [("H430", ["kt/god", "kt/falsegod"])])
          [("kt/god", [⟨"God".data, "god".data⟩]),
           ("kt/falsegod", [⟨"god".data, "god".data⟩])],
        m'.stage = m.stage →
        (prioritizeArticles "the God of hosts".data "H430"
          [("H430", ["kt/god", "kt/falsegod"])]).indexOf m.art ≤
        (prioritizeArticles "the God of hosts".data "H430"
          [("H430", ["kt/god", "kt/falsegod"])]).indexOf m'.art) :=
  c4_choose_min_stage_earliest "the God of hosts".data "H430"
    [("H430", ["kt/god", "kt/falsegod"])]
    [("kt/god", [⟨"God".data, "god".data⟩]),
     ("kt/falsegod", [⟨"god".data, "god".data⟩])]
    [("kt/god", [["H430"]]), ("kt/falsegod", [["H430"]])]
    (ChooseResult.mk "kt/god" "(kt/god, kt/falsegod)" [])
    (by decide)

/-! ### Claims C5, C6, C7: the trie scanner -/

/-- C6.  The candidate list returned by the trie lookup is sorted by
(extended) match length descending and, among equal lengths, by
priority ascending, so priority-0 original headwords precede priority-1
morphological variants. -/
theorem c6_findMatches_sorted (root : Trie) (text : JStr) (startPos : Nat) :
    List.Pairwise
      (fun a b : RawMatch => b.length ≤ a.length ∧
        (a.length = b.length → a.priority ≤ b.priority))
      (Trie.findMatches root text startPos) := by
  unfold Trie.findMatches findMatchesInTree
  refine (List.sorted_insertionSort matchOrder _).imp ?_
  intro a b hr
  unfold matchOrder at hr
  exact ⟨by omega, fun hh => by omega⟩

theorem lowStr_length (s : JStr) : (lowStr s).length = s.length := by
  simp [lowStr]

theorem wordAt_low (s : JStr) (i : Nat) : wordAt (lowStr s) i = wordAt s i := by
  unfold wordAt lowStr
  rw [List.get?_map]
  cases s.get? i with
  | none => rfl
  | some c => exact jsWordChar_lowChar c

theorem aposAt_low (s : JStr) (i : Nat) : aposAt (lowStr s) i = aposAt s i := by
  unfold aposAt lowStr
  rw [List.get?_map]
  cases s.get? i with
  | none => rfl
  | some c => exact jsApos_lowChar c

theorem spacePunctAt_low (s : JStr) (i : Nat) :
    spacePunctAt (lowStr s) i = spacePunctAt s i := by
  unfold spacePunctAt lowStr
  rw [List.get?_map]
  cases s.get? i with
  | none => rfl
  | some c => exact jsSpacePunct_lowChar c

theorem takeWhile_word_low (l : JStr) :
    ((lowStr l).takeWhile jsWordChar).length = (l.takeWhile jsWordChar).length := by
  unfold lowStr
  rw [List.takeWhile_map]
  have : (jsWordChar ∘ lowChar) = jsWordChar := funext fun c => jsWordChar_lowChar c
  rw [this, List.length_map]

theorem extendStartPos_low (orig : JStr) (p : Nat) :
    extendStartPos (lowStr orig) p = extendStartPos orig p := by
  have htw : (((lowStr orig).take (p - 1)).reverse.takeWhile jsWordChar).length =
      ((orig.take (p - 1)).reverse.takeWhile jsWordChar).length := by
    have h1 : ((lowStr orig).take (p - 1)).reverse = lowStr ((orig.take (p - 1)).reverse) := by
      unfold lowStr
      rw [← List.map_take, List.map_reverse]
    rw [h1, takeWhile_word_low]
  unfold extendStartPos
  simp only [aposAt_low, wordAt_low, htw]

theorem extendEndPos_low (orig : JStr) (p : Nat) :
    extendEndPos (lowStr orig) p = extendEndPos orig p := by
  have htw : (((lowStr orig).drop (p + 1)).takeWhile jsWordChar).length =
      ((orig.drop (p + 1)).takeWhile jsWordChar).length := by
    have h1 : (lowStr orig).drop (p + 1) = lowStr (orig.drop (p + 1)) := by
      unfold lowStr
      rw [List.map_drop]
    rw [h1, takeWhile_word_low]
  unfold extendEndPos
  simp only [aposAt_low, wordAt_low, htw, lowStr_length]

theorem collectMatches_low (orig : JStr) (sp cp : Nat) (ts : List TermData) :
    collectMatches (lowStr orig) sp cp ts = (collectMatches orig sp cp ts).map lowRaw := by
  have hmt : ((lowStr orig).drop (extendStartPos orig sp)).take
      (extendEndPos orig cp - extendStartPos orig sp) =
      lowStr ((orig.drop (extendStartPos orig sp)).take
        (extendEndPos orig cp - extendStartPos orig sp)) := by
    unfold lowStr
    rw [List.map_take, List.map_drop]
  unfold collectMatches
  simp only [extendStartPos_low, extendEndPos_low, spacePunctAt_low, wordAt_low,
    lowStr_length, hmt]
  split
  · rw [List.map_map]
    refine List.map_congr_left fun d _ => ?_
    simp [lowRaw, Function.comp, lowStr_length]
  · rfl

theorem trieWalk_low (orig : JStr) (sp : Nat) (t : Trie) (pos : Nat) (rem : JStr) :
    trieWalk (lowStr orig) sp t pos rem = (trieWalk orig sp t pos rem).map lowRaw := by
  induction rem generalizing t pos with
  | nil => rfl
  | cons c rest ih =>
    unfold trieWalk
    cases t.findChild c with
    | none => rfl
    | some t2 =>
      simp only
      rw [List.map_append, ih]
      by_cases ht : t2.terms ≠ []
      · rw [if_pos ht, if_pos ht, collectMatches_low]
      · rw [if_neg ht, if_neg ht]
        rfl

theorem orderedInsert_map_lowRaw (a : RawMatch) (l : List RawMatch) :
    (l.map lowRaw).orderedInsert matchOrder (lowRaw a) =
      (l.orderedInsert matchOrder a).map lowRaw := by
  induction l with
  | nil => rfl
  | cons b t ih =>
    simp only [List.map_cons, List.orderedInsert]
    by_cases h : matchOrder a b
    · rw [if_pos (show matchOrder (lowRaw a) (lowRaw b) from h), if_pos h]
      rfl
    · rw [if_neg (show ¬ matchOrder (lowRaw a) (lowRaw b) from h), if_neg h, List.map_cons, ih]

theorem insertionSort_map_lowRaw (l : List RawMatch) :
    (l.map lowRaw).insertionSort matchOrder = (l.insertionSort matchOrder).map lowRaw := by
  induction l with
  | nil => rfl
  | cons a t ih =>
    simp only [List.map_cons, List.insertionSort]
    rw [ih, orderedInsert_map_lowRaw]

theorem findMatches_low (root : Trie) (text : JStr) (p : Nat) :
    Trie.findMatches root (lowStr text) p = (Trie.findMatches root text p).map lowRaw := by
  unfold Trie.findMatches findMatchesInTree
  rw [lowStr_idem, trieWalk_low, insertionSort_map_lowRaw]

/-- C5.  The `(start, end, article)` span set produced by scanning a
verse with the trie is unchanged when the verse is lowercased before
scanning: the walk always runs on the lowercased text, and the span
extension and boundary tests are case-invariant. -/
theorem c5_scan_lowercase_invariant (root : Trie) (text : JStr) :
    scanTriples root (lowStr text) = scanTriples root text := by
  unfold scanTriples
  rw [lowStr_length]
  refine congrArg _ (funext fun p => ?_)
  rw [findMatches_low, List.flatMap_map]
  rfl

theorem extendStartPos_le (orig : JStr) (p : Nat) : extendStartPos orig p ≤ p := by
  unfold extendStartPos
  split
  · split <;> omega
  · exact Nat.le_refl p

theorem extendEndPos_ge (orig : JStr) (p : Nat) : p ≤ extendEndPos orig p := by
  unfold extendEndPos
  split
  · split <;> omega
  · exact Nat.le_refl p

theorem extendEndPos_le_len (orig : JStr) (p : Nat) (h : p ≤ orig.length) :
    extendEndPos orig p ≤ orig.length := by
  unfold extendEndPos
  split
  · rename_i hcond
    split
    · have hle : ((orig.drop (p + 1)).takeWhile jsWordChar).length ≤
          (orig.drop (p + 1)).length :=
        (List.takeWhile_prefix jsWordChar).length_le
      rw [List.length_drop] at hle
      omega
    · omega
  · exact h

theorem collectMatches_bounds {orig : JStr} {sp cp : Nat} {ts : List TermData}
    {m : RawMatch} (hsp : sp < cp) (hcp : cp ≤ orig.length)
    (hm : m ∈ collectMatches orig sp cp ts) :
    1 ≤ m.originalLength ∧ m.originalLength ≤ m.length := by
  unfold collectMatches at hm
  simp only [] at hm
  split at hm
  · obtain ⟨d, _, hd⟩ := List.mem_map.mp hm
    have hes := extendStartPos_le orig sp
    have hee := extendEndPos_ge orig cp
    have heel := extendEndPos_le_len orig cp hcp
    have hol : m.originalLength = cp - sp := by rw [← hd]
    have hl : m.length = ((orig.drop (extendStartPos orig sp)).take
        (extendEndPos orig cp - extendStartPos orig sp)).length := by rw [← hd]
    rw [List.length_take, List.length_drop] at hl
    simp only [Nat.min_def] at hl
    split at hl <;> omega
  · simp at hm

theorem trieWalk_bounds {orig : JStr} {sp : Nat} {t : Trie} {pos : Nat} {rem : JStr}
    {m : RawMatch} (hsp : sp ≤ pos) (hrem : pos + rem.length ≤ orig.length)
    (hm : m ∈ trieWalk orig sp t pos rem) :
    1 ≤ m.originalLength ∧ m.originalLength ≤ m.length := by
  induction rem generalizing t pos with
  | nil => simp [trieWalk] at hm
  | cons c rest ih =>
    unfold trieWalk at hm
    cases hc : t.findChild c with
    | none => rw [hc] at hm; simp at hm
    | some t2 =>
      rw [hc] at hm
      simp only [List.mem_append] at hm
      rcases hm with hm | hm
      · by_cases ht : t2.terms ≠ []
        · rw [if_pos ht] at hm
          have : pos + 1 ≤ orig.length := by
            simp only [List.length_cons] at hrem
            omega
          exact collectMatches_bounds (by omega) this hm
        · rw [if_neg ht] at hm
          simp at hm
      · refine ih (by omega) ?_ hm
        simp only [List.length_cons] at hrem
        omega

theorem findMatches_bounds {root : Trie} {s : JStr} {p : Nat} {m : RawMatch}
    (hp : p < s.length) (hm : m ∈ Trie.findMatches root s p) :
    1 ≤ m.originalLength ∧ m.originalLength ≤ m.length := by
  unfold Trie.findMatches findMatchesInTree at hm
  have hm2 := (List.perm_insertionSort matchOrder _).mem_iff.mp hm
  refine trieWalk_bounds (Nat.le_refl p) ?_ hm2
  rw [List.length_drop, lowStr_length]
  omega

/-- C7.  When the scanner chooses a match, the recursive continuation
resumes at the skip position plus the match's unextended
(`originalLength`) span, never its extended length; and the unextended
span is positive and never exceeds the extended one, so a later match
may begin inside the extended tail. -/
theorem c7_scan_advances_by_unextended (root : Trie) (s : JStr) (fuel pos : Nat)
    (processed : JStr) (best0 : RawMatch) (rest0 : List RawMatch)
    (hlt : skipPos s pos < s.length)
    (hfm : Trie.findMatches root s (skipPos s pos) = best0 :: rest0) :
    (∃ e pr, scanLoopF root s (fuel + 1) pos processed =
      e :: scanLoopF root s fuel (skipPos s pos + best0.originalLength) pr) ∧
    1 ≤ best0.originalLength ∧ best0.originalLength ≤ best0.length := by
  have hbm : best0 ∈ Trie.findMatches root s (skipPos s pos) := by
    rw [hfm]; exact List.mem_cons_self _ _
  have hb := findMatches_bounds hlt hbm
  refine ⟨?_, hb⟩
  have heq : scanLoopF root s (fuel + 1) pos processed =
      (⟨best0.term, bestArticles (best0 :: rest0) best0,
        godRule s (skipPos s pos) best0 (bestArticles (best0 :: rest0) best0),
        best0.matchedText,
        (processed ++ (s.drop pos).take (skipPos s pos - pos)) ++
          '[' :: (best0.matchedText ++ ']' :: s.drop (skipPos s pos + best0.length)),
        best0.priority⟩ : DriverMatch)
        :: scanLoopF root s fuel (skipPos s pos + best0.originalLength)
          ((processed ++ (s.drop pos).take (skipPos s pos - pos)) ++
            (s.drop (skipPos s pos)).take best0.originalLength) := by
    simp only [scanLoopF]
    rw [if_pos hlt, hfm]
    simp only []
    rw [if_pos (show best0.originalLength ≠ 0 by omega)]
  exact ⟨_, _, heq⟩

theorem c7_witness :
    ((∃ e pr, scanLoopF c7root c7s (0 + 1) 0 [] =
      e :: scanLoopF c7root c7s 0 (skipPos c7s 0 + c7best.originalLength) pr) ∧
    1 ≤ c7best.originalLength ∧ c7best.originalLength ≤ c7best.length) :=
  c7_scan_advances_by_unextended c7root c7s 0 0 [] c7best [] (by decide) (by decide)

/-! ### Claim C2: occurrence numbering -/

theorem digitVal_digitChar {d : Nat} (h : d < 10) :
    digitVal (Nat.digitChar d) = d := by
  interval_cases d <;> decide

theorem jsDigit_digitChar {d : Nat} (h : d < 10) :
    jsDigit (Nat.digitChar d) = true := by
  interval_cases d <;> decide

theorem natDecAux_decode (fuel : Nat) : ∀ n a, n ≤ fuel →
    List.foldl (fun acc c => acc * 10 + digitVal c) a (natDecAux fuel n) =
      a * 10 ^ (natDecAux fuel n).length + n := by
  induction fuel with
  | zero =>
    intro n a h
    have : n = 0 := by omega
    subst this
    simp [natDecAux]
  | succ fuel ih =>
    intro n a h
    by_cases hn : n = 0
    · subst hn
      simp [natDecAux]
    · have hstep : natDecAux (fuel + 1) n =
          natDecAux fuel (n / 10) ++ [Nat.digitChar (n % 10)] := by
        rw [natDecAux.eq_def]
        simp only []
        rw [if_neg hn]
      have hdiv : n / 10 ≤ fuel := by
        have := Nat.div_lt_self (Nat.pos_of_ne_zero hn) (by norm_num : 1 < 10)
        omega
      rw [hstep, List.foldl_append, ih (n / 10) a hdiv]
      have hmod : digitVal (Nat.digitChar (n % 10)) = n % 10 :=
        digitVal_digitChar (Nat.mod_lt n (by norm_num))
      simp only [List.foldl_cons, List.foldl_nil, hmod, List.length_append,
        List.length_singleton]
      calc (a * 10 ^ (natDecAux fuel (n / 10)).length + n / 10) * 10 + n % 10
          = a * 10 ^ ((natDecAux fuel (n / 10)).length + 1) +
              (10 * (n / 10) + n % 10) := by ring
        _ = a * 10 ^ ((natDecAux fuel (n / 10)).length + 1) + n := by
            rw [Nat.div_add_mod]

theorem digitsToNat_natDec (n : Nat) : digitsToNat (natDec n) = n := by
  unfold natDec digitsToNat
  split
  · subst n
    decide
  · have := natDecAux_decode n n 0 (Nat.le_refl n)
    simpa using this

theorem natDec_inj {m n : Nat} (h : natDec m = natDec n) : m = n := by
  rw [← digitsToNat_natDec m, h, digitsToNat_natDec]

theorem natDecAux_digits (fuel : Nat) : ∀ n c, c ∈ natDecAux fuel n →
    jsDigit c = true := by
  induction fuel with
  | zero => intro n c hc; simp [natDecAux] at hc
  | succ fuel ih =>
    intro n c hc
    unfold natDecAux at hc
    split at hc
    · simp at hc
    · rcases List.mem_append.mp hc with hl | hr
      · exact ih _ c hl
      · rw [List.mem_singleton] at hr
        subst hr
        exact jsDigit_digitChar (Nat.mod_lt n (by norm_num))

theorem natDec_digits {n : Nat} {c : Char} (hc : c ∈ natDec n) : jsDigit c = true := by
  unfold natDec at hc
  split at hc
  · rw [List.mem_singleton] at hc
    subst hc
    decide
  · exact natDecAux_digits n n c hc

theorem natDec_not_colon {n : Nat} {c : Char} (hc : c ∈ natDec n) :
    (c == ':') = false := by
  have hd := natDec_digits hc
  rw [beq_eq_false_iff_ne]
  intro he
  subst he
  exact absurd hd (by decide)

theorem takeWhile_append_all {p : Char → Bool} {a : JStr}
    (h : ∀ x ∈ a, p x = true) (l : JStr) :
    (a ++ l).takeWhile p = a ++ l.takeWhile p := by
  induction a with
  | nil => rfl
  | cons x t ih =>
    rw [List.cons_append, List.takeWhile_cons, h x (List.mem_cons_self x t),
      List.cons_append, ih fun y hy => h y (List.mem_cons_of_mem x hy)]
    rfl

theorem dropWhile_append_all {p : Char → Bool} {a : JStr}
    (h : ∀ x ∈ a, p x = true) (l : JStr) :
    (a ++ l).dropWhile p = l.dropWhile p := by
  induction a with
  | nil => rfl
  | cons x t ih =>
    rw [List.cons_append, List.dropWhile_cons_of_pos (h x (List.mem_cons_self x t)),
      ih fun y hy => h y (List.mem_cons_of_mem x hy)]

theorem refStr_inj {c v c2 v2 : Nat} (h : refStr c v = refStr c2 v2) :
    c = c2 ∧ v = v2 := by
  have hp1 : ∀ x ∈ natDec c, (fun ch => !(ch == ':')) x = true := by
    intro x hx
    simp only [natDec_not_colon hx, Bool.not_false]
  have hp2 : ∀ x ∈ natDec c2, (fun ch => !(ch == ':')) x = true := by
    intro x hx
    simp only [natDec_not_colon hx, Bool.not_false]
  have htake : natDec c = natDec c2 := by
    have h1 := congrArg (List.takeWhile fun ch => !(ch == ':')) h
    unfold refStr at h1
    rw [takeWhile_append_all hp1, takeWhile_append_all hp2,
      List.takeWhile_cons] at h1
    simpa using h1
  have hdrop : natDec v = natDec v2 := by
    have h1 := congrArg (List.dropWhile fun ch => !(ch == ':')) h
    unfold refStr at h1
    rw [dropWhile_append_all hp1, dropWhile_append_all hp2,
      List.dropWhile_cons_of_neg (by decide), List.dropWhile_cons_of_neg (by decide)]
      at h1
    exact List.tail_eq_of_cons_eq h1
  exact ⟨natDec_inj htake, natDec_inj hdrop⟩

theorem occGet_occSet_self (m : List (JStr × Nat)) (k : JStr) (v : Nat) :
    occGet (occSet m k v) k = v := by
  induction m with
  | nil => simp [occGet, occSet]
  | cons e t ih =>
    unfold occSet
    by_cases h : e.1 == k
    · rw [if_pos h]
      simp [occGet]
    · rw [if_neg h]
      unfold occGet at ih ⊢
      rw [List.find?_cons_of_neg _ (by simpa using h)]
      exact ih

theorem occGet_occSet_ne (m : List (JStr × Nat)) (k k2 : JStr) (v : Nat)
    (hne : k2 ≠ k) : occGet (occSet m k v) k2 = occGet m k2 := by
  induction m with
  | nil =>
    simp only [occSet, occGet, List.find?_nil, Option.map_none]
    rw [List.find?_cons_of_neg _ (by simpa using fun he => hne he.symm)]
    rfl
  | cons e t ih =>
    unfold occSet
    by_cases h : e.1 == k
    · rw [if_pos h]
      unfold occGet
      rw [List.find?_cons_of_neg _ (by simpa using fun he => hne he.symm),
        List.find?_cons_of_neg _ ?_]
      have he : e.1 = k := by simpa using h
      simpa [he] using fun hx => hne hx.symm
    · rw [if_neg h]
      unfold occGet at ih ⊢
      by_cases h2 : e.1 == k2
      · rw [List.find?_cons_of_pos _ (by simpa using h2),
          List.find?_cons_of_pos _ (by simpa using h2)]
      · rw [List.find?_cons_of_neg _ (by simpa using h2),
          List.find?_cons_of_neg _ (by simpa using h2)]
        exact ih

theorem verseRowsAux_ref {ids : Nat → String} {inf : Inflect} {refS : JStr}
    {r : OutRow} : ∀ {ms occMap k}, r ∈ verseRowsAux ids inf refS ms occMap k →
    r.ref = refS := by
  intro ms
  induction ms with
  | nil => intro occMap k h; simp [verseRowsAux] at h
  | cons m rest ih =>
    intro occMap k h
    unfold verseRowsAux at h
    rcases List.mem_cons.mp h with he | ht
    · subst he; rfl
    · exact ih ht

theorem verseRowsAux_occ {ids : Nat → String} {inf : Inflect} {refS ow : JStr} :
    ∀ (ms : List DriverMatch) (occMap : List (JStr × Nat)) (k : Nat),
    ((verseRowsAux ids inf refS ms occMap k).filter fun r =>
        r.origWords == ow).map OutRow.occ =
      List.range' (occGet occMap ow + 1)
        (((verseRowsAux ids inf refS ms occMap k).filter fun r =>
          r.origWords == ow).length) := by
  intro ms
  induction ms with
  | nil => intro occMap k; rfl
  | cons m rest ih =>
    intro occMap k
    unfold verseRowsAux
    simp only []
    rw [List.filter_cons]
    by_cases hq : m.matchedText = ow
    · subst hq
      rw [if_pos (by simp)]
      simp only [List.map_cons, List.length_cons]
      have hocc : occGet (occSet occMap m.matchedText
          (occGet occMap m.matchedText + 1)) m.matchedText =
          occGet occMap m.matchedText + 1 := occGet_occSet_self _ _ _
      rw [ih, hocc]
      rfl
    · rw [if_neg (by simpa using hq)]
      rw [ih, occGet_occSet_ne _ _ _ _ fun he => hq he.symm]

theorem filter_ref_and {rows : List OutRow} {refS : JStr}
    (h : ∀ r ∈ rows, r.ref = refS) (refS2 ow : JStr) :
    rows.filter (fun r => r.ref == refS2 && r.origWords == ow) =
      if refS = refS2 then rows.filter (fun r => r.origWords == ow) else [] := by
  induction rows with
  | nil => split <;> rfl
  | cons r t ih =>
    have hr : r.ref = refS := h r (List.mem_cons_self r t)
    have ht := ih fun x hx => h x (List.mem_cons_of_mem r hx)
    by_cases he : refS = refS2
    · subst he
      rw [if_pos rfl] at ht ⊢
      rw [List.filter_cons, List.filter_cons, ht]
      have : (r.ref == refS) = true := by simpa using hr
      simp only [this, Bool.true_and]
    · rw [if_neg he] at ht ⊢
      rw [List.filter_cons, ht]
      have : (r.ref == refS2) = false := by
        rw [beq_eq_false_iff_ne, hr]
        exact he
      simp only [this, Bool.false_and]
      rfl

theorem verseRowsAux_occContiguous (ids : Nat → String) (inf : Inflect)
    (refS : JStr) (ms : List DriverMatch) (k : Nat) :
    occContiguous (verseRowsAux ids inf refS ms [] k) := by
  intro refS2 ow
  rw [filter_ref_and (fun r hr => verseRowsAux_ref hr) refS2 ow]
  by_cases he : refS = refS2
  · rw [if_pos he]
    exact @verseRowsAux_occ ids inf refS ow ms [] k
  · rw [if_neg he]
    rfl

theorem occContiguous_append {A B : List OutRow} (hA : occContiguous A)
    (hB : occContiguous B)
    (hdisj : ∀ r1 ∈ A, ∀ r2 ∈ B, r1.ref ≠ r2.ref) :
    occContiguous (A ++ B) := by
  intro refS ow
  rw [List.filter_append]
  by_cases hfa : A.filter (fun r => r.ref == refS && r.origWords == ow) = []
  · rw [hfa, List.nil_append]
    exact hB refS ow
  · obtain ⟨r1, hr1⟩ := List.exists_mem_of_ne_nil _ hfa
    have hr1A : r1 ∈ A := List.mem_of_mem_filter hr1
    have hr1p := List.of_mem_filter hr1
    rw [Bool.and_eq_true] at hr1p
    have hr1ref : r1.ref = refS := by simpa using hr1p.1
    have hfb : B.filter (fun r => r.ref == refS && r.origWords == ow) = [] := by
      rw [List.filter_eq_nil_iff]
      intro r2 hr2 hp2
      rw [Bool.and_eq_true] at hp2
      have hr2ref : r2.ref = refS := by simpa using hp2.1
      exact hdisj r1 hr1A r2 hr2 (by rw [hr1ref, hr2ref])
    rw [hfb, List.append_nil]
    exact hA refS ow

theorem verseLoop_ref {ids : Nat → String} {inf : Inflect} {trie : Trie} {c : Nat}
    {verses : List (Nat × JStr)} {r : OutRow} :
    ∀ {vs k}, r ∈ (verseLoop ids inf trie c verses vs k).1 →
    ∃ v ∈ vs, r.ref = refStr c v := by
  intro vs
  induction vs with
  | nil => intro k h; simp [verseLoop] at h
  | cons v rest ih =>
    intro k h
    unfold verseLoop at h
    simp only [] at h
    rcases List.mem_append.mp h with hl | hr
    · exact ⟨v, List.mem_cons_self v rest, verseRowsAux_ref hl⟩
    · obtain ⟨v2, hv2, he⟩ := ih hr
      exact ⟨v2, List.mem_cons_of_mem v hv2, he⟩

theorem verseLoop_occContiguous (ids : Nat → String) (inf : Inflect) (trie : Trie)
    (c : Nat) (verses : List (Nat × JStr)) :
    ∀ (vs : List Nat), vs.Nodup → ∀ k,
    occContiguous (verseLoop ids inf trie c verses vs k).1 := by
  intro vs
  induction vs with
  | nil => intro _ k refS ow; rfl
  | cons v rest ih =>
    intro hnd k
    unfold verseLoop
    simp only []
    refine occContiguous_append
      (verseRowsAux_occContiguous ids inf (refStr c v) _ _)
      (ih (List.Nodup.of_cons hnd) _) ?_
    intro r1 hr1 r2 hr2
    have h1 := verseRowsAux_ref hr1
    obtain ⟨v2, hv2, h2⟩ := verseLoop_ref hr2
    rw [h1, h2]
    intro he
    have := (refStr_inj he).2
    subst this
    exact (List.nodup_cons.mp hnd).1 hv2

theorem chapterLoop_ref {ids : Nat → String} {inf : Inflect} {trie : Trie}
    {vb : VersesObj} {r : OutRow} :
    ∀ {cs k}, r ∈ chapterLoop ids inf trie vb cs k →
    ∃ c ∈ cs, ∃ v, r.ref = refStr c v := by
  intro cs
  induction cs with
  | nil => intro k h; simp [chapterLoop] at h
  | cons c rest ih =>
    intro k h
    unfold chapterLoop at h
    simp only [] at h
    rcases List.mem_append.mp h with hl | hr
    · obtain ⟨v, _, he⟩ := verseLoop_ref hl
      exact ⟨c, List.mem_cons_self c rest, v, he⟩
    · obtain ⟨c2, hc2, v, he⟩ := ih hr
      exact ⟨c2, List.mem_cons_of_mem c hc2, v, he⟩

theorem chGet_nodup {vb : VersesObj} (hv : ∀ e ∈ vb, (e.2.map Prod.fst).Nodup)
    (c : Nat) : ((chGet vb c).map Prod.fst).Nodup := by
  unfold chGet
  cases hf : vb.find? fun e => e.1 == c with
  | none => simp
  | some e =>
    exact hv e (List.mem_of_find?_eq_some hf)

theorem sortedKeysNat_nodup {l : List Nat} (h : l.Nodup) :
    (sortedKeysNat l).Nodup :=
  (List.perm_insertionSort _ l).nodup_iff.mpr h

theorem chapterLoop_occContiguous (ids : Nat → String) (inf : Inflect) (trie : Trie)
    (vb : VersesObj) (hv : ∀ e ∈ vb, (e.2.map Prod.fst).Nodup) :
    ∀ (cs : List Nat), cs.Nodup → ∀ k,
    occContiguous (chapterLoop ids inf trie vb cs k) := by
  intro cs
  induction cs with
  | nil => intro _ k refS ow; rfl
  | cons c rest ih =>
    intro hnd k
    unfold chapterLoop
    simp only []
    refine occContiguous_append
      (verseLoop_occContiguous ids inf trie c (chGet vb c) _
        (sortedKeysNat_nodup (chGet_nodup hv c)) _)
      (ih (List.Nodup.of_cons hnd) _) ?_
    intro r1 hr1 r2 hr2
    obtain ⟨v1, _, h1⟩ := verseLoop_ref hr1
    obtain ⟨c2, hc2, v2, h2⟩ := chapterLoop_ref hr2
    rw [h1, h2]
    intro he
    have := (refStr_inj he).1
    subst this
    exact (List.nodup_cons.mp hnd).1 hc2

/-- C2.  In the English-first output, the `Occurrence` values of the
rows sharing a `(Reference, OrigWords)` pair are exactly `1, 2, ..., k`
in emission order: within a verse the per-`matchedText` counter
increments from 1 in match order, and rows of distinct verses can never
share a `Reference` (decimal `c:v` rendering is injective). -/
theorem c2_occurrences_contiguous (ids : Nat → String) (inf : Inflect)
    (trie : Trie) (vb : VersesObj) (hch : (vb.map Prod.fst).Nodup)
    (hv : ∀ e ∈ vb, (e.2.map Prod.fst).Nodup) (refS ow : JStr) :
    ((generateTwlRows ids inf trie vb).filter fun r =>
        r.ref == refS && r.origWords == ow).map OutRow.occ =
      List.range' 1 (((generateTwlRows ids inf trie vb).filter fun r =>
        r.ref == refS && r.origWords == ow).length) :=
  chapterLoop_occContiguous ids inf trie vb hv _
    (sortedKeysNat_nodup hch) 0 refS ow

theorem c2_witness :
    ((c2vb.map Prod.fst).Nodup ∧ (∀ e ∈ c2vb, (e.2.map Prod.fst).Nodup)) ∧
    ((generateTwlRows c2ids c2inf c2root c2vb).filter fun r =>
        r.ref == refStr 1 1 && r.origWords == "grace".data).map OutRow.occ =
      List.range' 1 (((generateTwlRows c2ids c2inf c2root c2vb).filter fun r =>
        r.ref == refStr 1 1 && r.origWords == "grace".data).length) :=
  ⟨⟨by decide, by decide⟩,
    c2_occurrences_contiguous c2ids c2inf c2root c2vb (by decide) (by decide)
      (refStr 1 1) "grace".data⟩

/-! ### Claim C8: the Tags column -/

theorem tagOf_iff (art : String) :
    (tagOf art = "keyterm" ↔ "kt/".data.isPrefixOf art.data = true) ∧
    (tagOf art = "name" ↔ ("names/".data.isPrefixOf art.data = true ∧
      ¬ "kt/".data.isPrefixOf art.data = true)) ∧
    (tagOf art = "" ↔ (¬ "kt/".data.isPrefixOf art.data = true ∧
      ¬ "names/".data.isPrefixOf art.data = true)) := by
  by_cases h1 : "kt/".data.isPrefixOf art.data = true
  · simp [tagOf, h1]
  · by_cases h2 : "names/".data.isPrefixOf art.data = true <;> simp [tagOf, h1, h2]

theorem verseRowsAux_tag {ids : Nat → String} {inf : Inflect} {refS : JStr} :
    ∀ {ms occMap k} {r : OutRow}, r ∈ verseRowsAux ids inf refS ms occMap k →
    ∃ art : String, r.tag = tagOf art ∧
      r.twLink = if art ≠ "" then "rc://*/tw/dict/bible/" ++ art else "" := by
  intro ms
  induction ms with
  | nil => intro occMap k r h; simp [verseRowsAux] at h
  | cons m rest ih =>
    intro occMap k r h
    unfold verseRowsAux at h
    rcases List.mem_cons.mp h with he | ht
    · subst he
      exact ⟨m.articles.headD "", rfl, rfl⟩
    · exact ih ht

theorem sfProcessRow_matched_tag (sp : List (String × List String))
    (tm : List (String × List TermObj)) (cols row : SfRow) (v : JStr) (d : String)
    (h : sfProcessRow sp tm cols = .matched row v d) :
    ∃ res, sfChooseArticle cols.glQuote.data cols.strongs sp tm = some res ∧
      row.tags = tagOf res.article ∧
      row.twLink = "rc://*/tw/dict/bible/" ++ res.article := by
  unfold sfProcessRow at h
  simp only [] at h
  cases hch : sfChooseArticle cols.glQuote.data cols.strongs sp tm with
  | none => rw [hch] at h; simp at h
  | some res =>
    rw [hch] at h
    simp only [] at h
    injection h with h1 h2 h3
    exact ⟨res, rfl, by rw [← h1], by rw [← h1]⟩

theorem sfProcessRow_noMatch_id (sp : List (String × List String))
    (tm : List (String × List TermObj)) (cols row : SfRow) (d : String)
    (h : sfProcessRow sp tm cols = .noMatch row d) : row = cols := by
  unfold sfProcessRow at h
  simp only [] at h
  cases hch : sfChooseArticle cols.glQuote.data cols.strongs sp tm with
  | none =>
    rw [hch] at h
    simp only [] at h
    injection h with h1 h2
    exact h1.symm
  | some res => rw [hch] at h; simp at h

/-- C8 (amended).  The emitted tag function satisfies the claimed iff
(`keyterm` exactly for `kt/` articles, `name` exactly for `names/`,
blank otherwise); every English-first data row's Tags is that function
of the very article whose path is written into the row's own TWLink
column; every legacy matched row's Tags is that
function of the chosen article (whose path also lands in TWLink); but a
legacy no-match row is the prepared row unchanged, so it keeps the
short `buildInitialTsv` tags `kt`/`names` — the original claim fails on
the legacy no-match TSV. -/
theorem c8_tags_amended :
    (∀ art : String,
      (tagOf art = "keyterm" ↔ "kt/".data.isPrefixOf art.data = true) ∧
      (tagOf art = "name" ↔ ("names/".data.isPrefixOf art.data = true ∧
        ¬ "kt/".data.isPrefixOf art.data = true)) ∧
      (tagOf art = "" ↔ (¬ "kt/".data.isPrefixOf art.data = true ∧
        ¬ "names/".data.isPrefixOf art.data = true))) ∧
    ((∀ (ids : Nat → String) (inf : Inflect) (refS : JStr) (ms : List DriverMatch)
        (occMap : List (JStr × Nat)) (k : Nat) (r : OutRow),
        r ∈ verseRowsAux ids inf refS ms occMap k →
        ∃ art : String, r.tag = tagOf art ∧
          r.twLink = if art ≠ "" then "rc://*/tw/dict/bible/" ++ art else "") ∧
    (∀ (sp : List (String × List String)) (tm : List (String × List TermObj))
        (cols row : SfRow) (v : JStr) (d : String),
        sfProcessRow sp tm cols = .matched row v d →
        ∃ res, sfChooseArticle cols.glQuote.data cols.strongs sp tm = some res ∧
          row.tags = tagOf res.article ∧
          row.twLink = "rc://*/tw/dict/bible/" ++ res.article) ∧
    (∀ (sp : List (String × List String)) (tm : List (String × List TermObj))
        (cols row : SfRow) (d : String),
        sfProcessRow sp tm cols = .noMatch row d → row = cols)) :=
  ⟨tagOf_iff,
   fun _ _ _ _ _ _ _ h => verseRowsAux_tag h,
   sfProcessRow_matched_tag,
   sfProcessRow_noMatch_id⟩

/-- C8 counterexample: with TW data offering `kt/god` for H430 but an
empty term list, the legacy selector returns null, and the emitted
no-match row keeps the short tag `kt` although its TWLink article path
starts with `kt/` — so its Tags is not `keyterm`. -/
theorem c8_counterexample :
    sfProcessRow c8pivot c8termMap c8cols = SfOut.noMatch c8cols "(kt/god)" ∧
    c8cols.tags = sfInitialTag "kt/god" ∧
    "kt/".data.isPrefixOf "kt/god".data = true ∧
    c8cols.tags ≠ "keyterm" := by
  refine ⟨by decide, by decide, by decide, by decide⟩

theorem c8_witness :
    (∃ art : String, c8r0.tag = tagOf art ∧
      c8r0.twLink = if art ≠ "" then "rc://*/tw/dict/bible/" ++ art else "") ∧
    (∃ res, sfChooseArticle c8cols.glQuote.data c8cols.strongs c8pivot c8mterm =
        some res ∧ c8mrow.tags = tagOf res.article ∧
        c8mrow.twLink = "rc://*/tw/dict/bible/" ++ res.article) ∧
    c8cols = c8cols :=
  ⟨c8_tags_amended.2.1 c8ids c8inf "1:1".data [c8m0] [] 0 c8r0 (by decide),
   c8_tags_amended.2.2.1 c8pivot c8mterm c8cols c8mrow [] "" (by decide),
   c8_tags_amended.2.2.2 c8pivot c8termMap c8cols c8cols "(kt/god)" (by decide)⟩

end TwlGen
